import Mathlib

/-!
Verification development for the accessibility-checker crawler
(`wcag-crawler.ts`, two variants: the modular tiered crawler and the
stage1 crawler, plus the rule files defining `tiers`, `rule_1_4_2_audio`,
`rule_2_5_8_targetSizeMin`).

JavaScript strings are modelled as `List Char` in the core (`String` at
the API boundary).  The platform's WHATWG `new URL` parser, which the
crawler uses through `normalizeUrl` / `sameDomain`, is modelled by
`parseChars` / `serializeChars` below: it covers
`scheme://userinfo@host:port/path?query#fragment`, host lower-casing,
fragment/query splitting at the first `#` / `?`, the special-scheme
slash handling, and rejection of scheme-less input; percent-encoding,
IDNA and default-port stripping are not modelled (no crawler code path
depends on them).
-/

namespace Wcag

/-- Characters that terminate the authority component of a URL. -/
def isAuthEnd (c : Char) : Bool := c = '/' || c = '?' || c = '#'

/-- Characters the host parser rejects (WHATWG forbidden host code points,
restricted to the ones the model needs to stay closed under reparsing). -/
def badHostChar (c : Char) : Bool :=
  c = '/' || c = ':' || c = '?' || c = '#' || c = '@' || c = '\\' ||
  c = '[' || c = ']' || c = ' '

/-- First character of a URL scheme: an ASCII letter. -/
def isSchemeStart (c : Char) : Bool := c.isAlpha

/-- Subsequent characters of a URL scheme. -/
def isSchemeChar (c : Char) : Bool :=
  c.isAlpha || c.isDigit || c = '+' || c = '-' || c = '.'

/-- A wellformed scheme: nonempty, letter first, scheme characters after. -/
def validScheme : List Char → Bool
  | [] => false
  | c :: cs => isSchemeStart c && cs.all isSchemeChar

/-- WHATWG special schemes that take an authority even without `//`. -/
def specialScheme (s : List Char) : Bool :=
  s = "http".data || s = "https".data || s = "ws".data ||
  s = "wss".data || s = "ftp".data || s = "file".data

/-- Split a character list at the first occurrence of `c` (delimiter dropped). -/
def splitFirst (c : Char) : List Char → Option (List Char × List Char)
  | [] => none
  | x :: xs =>
    if x = c then some ([], xs)
    else (splitFirst c xs).map (fun p => (x :: p.1, p.2))

/-- Split a character list at the last occurrence of `c` (delimiter dropped). -/
def splitLast (c : Char) (l : List Char) : Option (List Char × List Char) :=
  (splitFirst c l.reverse).map (fun p => (p.2.reverse, p.1.reverse))

/-- Split off the longest prefix whose characters all fail `p`. -/
def breakWhen (p : Char → Bool) : List Char → List Char × List Char
  | [] => ([], [])
  | x :: xs =>
    if p x then ([], x :: xs)
    else
      let r := breakWhen p xs
      (x :: r.1, r.2)

/-- ASCII lower-casing of a character, as the URL host/scheme parser
applies it (explicit table for the 26 uppercase letters). -/
def lowerChar : Char → Char
  | 'A' => 'a' | 'B' => 'b' | 'C' => 'c' | 'D' => 'd' | 'E' => 'e'
  | 'F' => 'f' | 'G' => 'g' | 'H' => 'h' | 'I' => 'i' | 'J' => 'j'
  | 'K' => 'k' | 'L' => 'l' | 'M' => 'm' | 'N' => 'n' | 'O' => 'o'
  | 'P' => 'p' | 'Q' => 'q' | 'R' => 'r' | 'S' => 's' | 'T' => 't'
  | 'U' => 'u' | 'V' => 'v' | 'W' => 'w' | 'X' => 'x' | 'Y' => 'y'
  | 'Z' => 'z'
  | c => c

/-- The parsed form of an absolute URL (model of the platform `URL` object). -/
structure URLRec where
  scheme : List Char
  auth : Bool
  userinfo : Option (List Char)
  host : List Char
  port : Option (List Char)
  path : List Char
  query : Option (List Char)
  frag : Option (List Char)
deriving Repr, DecidableEq

/-- Host parsing, as used both by the URL parser and the `hostname` setter:
lower-cases, rejects forbidden characters and (for special schemes) the
empty host. -/
def parseHost (special : Bool) (h : List Char) : Option (List Char) :=
  if h = [] then (if special then none else some [])
  else if h.all (fun c => !badHostChar c) then some (h.map lowerChar)
  else none

/-- Port parsing: empty means no port; otherwise decimal digits. -/
def parsePort (p : List Char) : Option (Option (List Char)) :=
  if p = [] then some none
  else if p.all Char.isDigit then some (some p)
  else none

/-- Authority parsing: optional `userinfo@`, then `host[:port]`. -/
def parseAuthority (special : Bool) (a : List Char) :
    Option (Option (List Char) × List Char × Option (List Char)) :=
  let uihp : Option (List Char) × List Char :=
    match splitLast '@' a with
    | none => (none, a)
    | some p => (if p.1 = [] then none else some p.1, p.2)
  match splitFirst ':' uihp.2 with
  | none => (parseHost special uihp.2).map (fun h => (uihp.1, h, none))
  | some hp =>
    match parseHost special hp.1, parsePort hp.2 with
    | some h, some po => some (uihp.1, h, po)
    | _, _ => none

/-- Path / query / fragment splitting: fragment at the first `#`,
query at the first `?` before it. -/
def parsePQF (t : List Char) : List Char × Option (List Char) × Option (List Char) :=
  let bh : List Char × Option (List Char) :=
    match splitFirst '#' t with
    | none => (t, none)
    | some p => (p.1, some p.2)
  match splitFirst '?' bh.1 with
  | none => (bh.1, none, bh.2)
  | some p => (p.1, some p.2, bh.2)

/-- Continuation of the URL parser once the scheme is recognised
(`scheme` already lower-cased, `rest` is everything after the colon). -/
def parseAfterScheme (scheme rest : List Char) : Option URLRec :=
  if specialScheme scheme then
    let rest2 := rest.dropWhile (fun c => c = '/' || c = '\\')
    let ac := breakWhen isAuthEnd rest2
    match parseAuthority true ac.1 with
    | none => none
    | some hp =>
      let pqf := parsePQF ac.2
      some { scheme := scheme, auth := true, userinfo := hp.1,
             host := hp.2.1, port := hp.2.2,
             path := if pqf.1 = [] then ['/'] else pqf.1,
             query := pqf.2.1, frag := pqf.2.2 }
  else
    if rest.take 2 = ['/', '/'] then
      let ac := breakWhen isAuthEnd (rest.drop 2)
      match parseAuthority false ac.1 with
      | none => none
      | some hp =>
        let pqf := parsePQF ac.2
        some { scheme := scheme, auth := true, userinfo := hp.1,
               host := hp.2.1, port := hp.2.2,
               path := pqf.1, query := pqf.2.1, frag := pqf.2.2 }
    else
      let pqf := parsePQF rest
      some { scheme := scheme, auth := false, userinfo := none,
             host := [], port := none,
             path := pqf.1, query := pqf.2.1, frag := pqf.2.2 }

/-- Model of `new URL(raw)` for absolute URLs: `some` on success, `none`
where the platform parser throws. -/
def parseChars (s : List Char) : Option URLRec :=
  match splitFirst ':' s with
  | none => none
  | some sr =>
    if validScheme sr.1 then parseAfterScheme (sr.1.map lowerChar) sr.2
    else none

/-- Model of the `URL.href` getter: canonical serialization. -/
def serializeChars (u : URLRec) : List Char :=
  u.scheme ++ [':'] ++
  (if u.auth then
    ['/', '/'] ++
    (match u.userinfo with | some ui => ui ++ ['@'] | none => []) ++
    u.host ++
    (match u.port with | some p => ':' :: p | none => [])
  else []) ++
  u.path ++
  (match u.query with | some q => '?' :: q | none => []) ++
  (match u.frag with | some f => '#' :: f | none => [])

/-- Model of the `u.hash = ""` assignment: removes the fragment. -/
def clearHash (u : URLRec) : URLRec := { u with frag := none }

/-- Model of the modular crawler's `www.`-stripping step:
`if (u.hostname.startsWith('www.')) u.hostname = u.hostname.slice(4)`.
The `hostname` setter revalidates the new value and leaves the URL
unchanged when the new host is rejected (e.g. empty on a special scheme). -/
def stripWWW (u : URLRec) : URLRec :=
  if u.host.take 4 = "www.".data then
    match parseHost (specialScheme u.scheme) (u.host.drop 4) with
    | some h => { u with host := h }
    | none => u
  else u

/-- `normalizeUrl` of the stage1 crawler (lines 224-232): parse, clear
the hash, return `href`; `null` (here `none`) when parsing throws. -/
def normalizeUrl1C (s : List Char) : Option (List Char) :=
  (parseChars s).map (fun u => serializeChars (clearHash u))

/-- `normalizeUrl` of the modular crawler (lines 48-60): parse, clear the
hash, strip a leading `www.` host label, return `href`. -/
def normalizeUrlMC (s : List Char) : Option (List Char) :=
  (parseChars s).map (fun u => serializeChars (stripWWW (clearHash u)))

/-- String-level `normalizeUrl` (stage1 crawler). -/
def normalizeUrl1 (s : String) : Option String :=
  (normalizeUrl1C s.data).map String.mk

/-- String-level `normalizeUrl` (modular crawler). -/
def normalizeUrlM (s : String) : Option String :=
  (normalizeUrlMC s.data).map String.mk

/-- `new URL(s).hostname`, as an option. -/
def hostOf (s : String) : Option (List Char) :=
  (parseChars s.data).map URLRec.host

/-- `sameDomain(url, base)` of the modular crawler (lines 62-70): parse
both arguments, then `urlHost === baseHost || urlHost.endsWith('.' + baseHost)`;
`false` when either `new URL` throws. -/
def sameDomain (url base : String) : Bool :=
  match hostOf url, hostOf base with
  | some hu, some hb => hu = hb || ('.' :: hb).isSuffixOf hu
  | _, _ => false

/-- `isSameDomain(url, baseDomain)` of the stage1 crawler (lines 234-240):
`new URL(url).hostname.endsWith(baseDomain)`; `false` when parsing throws. -/
def isSameDomain (url baseDomain : String) : Bool :=
  match hostOf url with
  | some hu => baseDomain.data.isSuffixOf hu
  | none => false

/-- `extractLinks` of the modular crawler (lines 72-80): normalize each
href, keep the same-domain ones in a `Set` (insertion order, deduplicated),
return `Array.from(set)`. -/
def extractLinksM (hrefs : List String) (base : String) : List String :=
  hrefs.foldl
    (fun acc h =>
      match normalizeUrlM h with
      | some clean =>
        if sameDomain clean base then
          (if clean ∈ acc then acc else acc ++ [clean])
        else acc
      | none => acc)
    []

/-- `extractLinks` of the stage1 crawler (lines 242-250): same shape with
the stage1 `normalizeUrl` and `isSameDomain`. -/
def extractLinks1 (hrefs : List String) (baseDomain : String) : List String :=
  hrefs.foldl
    (fun acc h =>
      match normalizeUrl1 h with
      | some clean =>
        if isSameDomain clean baseDomain then
          (if clean ∈ acc then acc else acc ++ [clean])
        else acc
      | none => acc)
    []

/-! ### Character and splitting lemmas -/

theorem lowerChar_cases (c : Char) :
    lowerChar c = c ∨ lowerChar c ∈ "abcdefghijklmnopqrstuvwxyz".data := by
  unfold lowerChar
  split <;> simp

theorem lowerChar_of_lower (d : Char)
    (h : d ∈ "abcdefghijklmnopqrstuvwxyz".data) : lowerChar d = d := by
  fin_cases h <;> rfl

theorem lowerChar_idem (c : Char) : lowerChar (lowerChar c) = lowerChar c := by
  rcases lowerChar_cases c with h | h
  · rw [h, h]
  · rw [lowerChar_of_lower _ h]

theorem lowerChar_not_bad (c : Char) (h : badHostChar c = false) :
    badHostChar (lowerChar c) = false := by
  rcases lowerChar_cases c with hc | hc
  · rwa [hc]
  · generalize lowerChar c = d at hc ⊢
    fin_cases hc <;> rfl

theorem splitFirst_eq (c : Char) (l a b : List Char)
    (h : splitFirst c l = some (a, b)) : l = a ++ c :: b ∧ c ∉ a := by
  induction l generalizing a b with
  | nil => simp [splitFirst] at h
  | cons x xs ih =>
    rw [splitFirst] at h
    by_cases hx : x = c
    · rw [if_pos hx] at h
      simp only [Option.some.injEq, Prod.mk.injEq] at h
      obtain ⟨rfl, rfl⟩ := h
      simp [hx]
    · rw [if_neg hx] at h
      cases ha : splitFirst c xs with
      | none => rw [ha] at h; simp at h
      | some p =>
        rw [ha] at h
        simp only [Option.map_some', Option.some.injEq, Prod.mk.injEq] at h
        obtain ⟨h1, h2⟩ := h
        obtain ⟨hl, hc⟩ := ih p.1 p.2 (by rw [ha])
        subst h1 h2
        refine ⟨by simp [hl], ?_⟩
        simp only [List.mem_cons, not_or]
        exact ⟨fun hh => hx hh.symm, hc⟩

theorem splitFirst_none_iff (c : Char) (l : List Char) :
    splitFirst c l = none ↔ c ∉ l := by
  induction l with
  | nil => simp [splitFirst]
  | cons x xs ih =>
    by_cases hx : x = c
    · subst hx; simp [splitFirst]
    · rw [splitFirst, if_neg hx]
      constructor
      · intro h
        have hn : splitFirst c xs = none := by
          cases ha : splitFirst c xs with
          | none => rfl
          | some p => rw [ha] at h; simp at h
        simp only [List.mem_cons, not_or]
        exact ⟨fun hh => hx hh.symm, ih.mp hn⟩
      · intro h
        have hxs : c ∉ xs := fun hm => h (List.mem_cons_of_mem _ hm)
        rw [ih.mpr hxs]
        rfl

theorem splitFirst_append (c : Char) (l1 l2 : List Char) (h : c ∉ l1) :
    splitFirst c (l1 ++ c :: l2) = some (l1, l2) := by
  induction l1 with
  | nil => simp [splitFirst]
  | cons x xs ih =>
    have hx : ¬ x = c := fun hh => h (by simp [hh])
    rw [List.cons_append, splitFirst, if_neg hx, ih (fun hh => h (by simp [hh]))]
    rfl

theorem splitFirst_none (c : Char) (l : List Char) (h : c ∉ l) :
    splitFirst c l = none := (splitFirst_none_iff c l).mpr h

theorem splitLast_eq (c : Char) (l a b : List Char)
    (h : splitLast c l = some (a, b)) : l = a ++ c :: b ∧ c ∉ b := by
  unfold splitLast at h
  match ha : splitFirst c l.reverse with
  | none => rw [ha] at h; simp at h
  | some p =>
    rw [ha] at h
    obtain ⟨rfl, rfl⟩ : p.2.reverse = a ∧ p.1.reverse = b := by simpa using h
    obtain ⟨h1, h2⟩ := splitFirst_eq c l.reverse p.1 p.2 (by rw [ha])
    constructor
    · have := congrArg List.reverse h1
      simpa [List.reverse_append] using this
    · simpa using h2

theorem splitLast_append (c : Char) (l1 l2 : List Char) (h : c ∉ l2) :
    splitLast c (l1 ++ c :: l2) = some (l1, l2) := by
  unfold splitLast
  have : (l1 ++ c :: l2).reverse = l2.reverse ++ c :: l1.reverse := by
    simp [List.reverse_append]
  rw [this, splitFirst_append c _ _ (by simpa using h)]
  simp

theorem splitLast_none (c : Char) (l : List Char) (h : c ∉ l) :
    splitLast c l = none := by
  unfold splitLast
  rw [splitFirst_none c _ (by simpa using h)]
  rfl

theorem breakWhen_eq (p : Char → Bool) (l : List Char) :
    (breakWhen p l).1 ++ (breakWhen p l).2 = l ∧
    (∀ x ∈ (breakWhen p l).1, p x = false) ∧
    (∀ x, (breakWhen p l).2.head? = some x → p x = true) := by
  induction l with
  | nil => simp [breakWhen]
  | cons x xs ih =>
    rw [breakWhen]
    by_cases hx : p x
    · simp only [if_pos hx]
      refine ⟨rfl, by simp, ?_⟩
      intro y hy
      simp at hy
      rwa [← hy]
    · simp only [if_neg hx]
      refine ⟨by simpa using ih.1, ?_, ih.2.2⟩
      intro y hy
      rcases List.mem_cons.mp hy with h1 | h2
      · rw [h1]; simpa using hx
      · exact ih.2.1 y h2

theorem breakWhen_append (p : Char → Bool) (l1 l2 : List Char)
    (h1 : ∀ x ∈ l1, p x = false)
    (h2 : ∀ x, l2.head? = some x → p x = true) :
    breakWhen p (l1 ++ l2) = (l1, l2) := by
  induction l1 with
  | nil =>
    match l2 with
    | [] => simp [breakWhen]
    | y :: ys => simp [breakWhen, h2 y rfl]
  | cons x xs ih =>
    rw [List.cons_append, breakWhen,
      if_neg (by simp [h1 x (by simp)]),
      ih (fun z hz => h1 z (by simp [hz]))]

/-! ### Wellformedness of parsed URLs and the parse/serialize round trip -/

/-- The invariants `parseChars` guarantees about its output — exactly what
is needed for `parseChars (serializeChars u) = some u`. -/
structure Wf (u : URLRec) : Prop where
  scheme_valid : validScheme u.scheme = true
  scheme_lower : u.scheme.map lowerChar = u.scheme
  special_auth : specialScheme u.scheme = true → u.auth = true
  host_ok : ∀ c ∈ u.host, badHostChar c = false
  host_lower : u.host.map lowerChar = u.host
  host_ne : specialScheme u.scheme = true → u.host ≠ []
  opaque_fields : u.auth = false → u.host = [] ∧ u.userinfo = none ∧ u.port = none
  ui_ne : u.userinfo ≠ some []
  ui_ok : ∀ l, u.userinfo = some l → ∀ c ∈ l, isAuthEnd c = false
  ui_head : specialScheme u.scheme = true → ∀ l c, u.userinfo = some l →
      l.head? = some c → c ≠ '/' ∧ c ≠ '\\'
  port_ok : ∀ p, u.port = some p → p ≠ [] ∧ p.all Char.isDigit = true
  path_sep : ∀ c ∈ u.path, c ≠ '?' ∧ c ≠ '#'
  path_slash : u.auth = true → u.path = [] ∨ u.path.head? = some '/'
  path_special : specialScheme u.scheme = true → u.path.head? = some '/'
  path_opaque : u.auth = false → u.path.take 2 ≠ ['/', '/']
  query_ok : ∀ q, u.query = some q → '#' ∉ q

theorem head?_append_left {α : Type} (p r : List α) (h : p ≠ []) :
    (p ++ r).head? = p.head? := by
  cases p with
  | nil => exact absurd rfl h
  | cons x xs => rfl

theorem validScheme_no_colon (s : List Char) (h : validScheme s = true) :
    ':' ∉ s := by
  cases s with
  | nil => simp
  | cons x xs =>
    rw [validScheme, Bool.and_eq_true] at h
    intro hm
    rcases List.mem_cons.mp hm with h1 | h2
    · rw [← h1] at h
      exact absurd h.1 (by decide)
    · have := List.all_eq_true.mp h.2 _ h2
      exact absurd this (by decide)

theorem lowerChar_schemeStart (c : Char) (h : isSchemeStart c = true) :
    isSchemeStart (lowerChar c) = true := by
  rcases lowerChar_cases c with hc | hc
  · rwa [hc]
  · generalize lowerChar c = d at hc ⊢
    fin_cases hc <;> rfl

theorem lowerChar_schemeChar (c : Char) (h : isSchemeChar c = true) :
    isSchemeChar (lowerChar c) = true := by
  rcases lowerChar_cases c with hc | hc
  · rwa [hc]
  · generalize lowerChar c = d at hc ⊢
    fin_cases hc <;> rfl

theorem validScheme_map_lower (s : List Char) (h : validScheme s = true) :
    validScheme (s.map lowerChar) = true := by
  cases s with
  | nil => simpa using h
  | cons x xs =>
    rw [validScheme, Bool.and_eq_true] at h
    rw [List.map_cons, validScheme, Bool.and_eq_true]
    refine ⟨lowerChar_schemeStart x h.1, ?_⟩
    rw [List.all_map]
    refine List.all_eq_true.mpr ?_
    intro c hc
    exact lowerChar_schemeChar c (List.all_eq_true.mp h.2 c hc)

theorem parseHost_ok (sp : Bool) (h h' : List Char)
    (hp : parseHost sp h = some h') :
    (∀ c ∈ h', badHostChar c = false) ∧ h'.map lowerChar = h' ∧
    (sp = true → h' ≠ []) := by
  unfold parseHost at hp
  by_cases h0 : h = []
  · rw [if_pos h0] at hp
    cases sp with
    | true => simp at hp
    | false =>
      rw [if_neg (by simp), Option.some.injEq] at hp
      subst hp
      exact ⟨by simp, by simp, by simp⟩
  · rw [if_neg h0] at hp
    by_cases hall : h.all (fun c => !badHostChar c) = true
    · rw [if_pos hall, Option.some.injEq] at hp
      subst hp
      refine ⟨?_, ?_, ?_⟩
      · intro c hc
        obtain ⟨c0, hc0, rfl⟩ := List.mem_map.mp hc
        have := List.all_eq_true.mp hall c0 hc0
        exact lowerChar_not_bad c0 (by simpa using this)
      · rw [List.map_map]
        exact List.map_congr_left (fun c _ => lowerChar_idem c)
      · intro _
        simpa using h0
    · rw [if_neg hall] at hp
      simp at hp

theorem parsePort_ok (p : List Char) (po : Option (List Char))
    (hp : parsePort p = some po) :
    ∀ q, po = some q → q ≠ [] ∧ q.all Char.isDigit = true := by
  unfold parsePort at hp
  by_cases h0 : p = []
  · rw [if_pos h0, Option.some.injEq] at hp
    subst hp
    simp
  · rw [if_neg h0] at hp
    by_cases hd : p.all Char.isDigit = true
    · rw [if_pos hd, Option.some.injEq] at hp
      subst hp
      intro q hq
      rw [Option.some.injEq] at hq
      subst hq
      exact ⟨h0, hd⟩
    · rw [if_neg hd] at hp
      simp at hp

theorem parseAuthority_ok (sp : Bool) (a : List Char)
    (ui : Option (List Char)) (h : List Char) (po : Option (List Char))
    (hpa : parseAuthority sp a = some (ui, h, po)) :
    (∀ c ∈ h, badHostChar c = false) ∧ h.map lowerChar = h ∧
    (sp = true → h ≠ []) ∧ ui ≠ some [] ∧
    (∀ l, ui = some l → ∀ c ∈ l, c ∈ a) ∧
    (∀ l c, ui = some l → l.head? = some c → a.head? = some c) ∧
    (∀ p, po = some p → p ≠ [] ∧ p.all Char.isDigit = true) := by
  unfold parseAuthority at hpa
  cases hsl : splitLast '@' a with
  | none =>
    rw [hsl] at hpa
    simp only [] at hpa
    cases hsf : splitFirst ':' a with
    | none =>
      rw [hsf] at hpa
      simp only [] at hpa
      cases hph : parseHost sp a with
      | none => rw [hph] at hpa; simp at hpa
      | some h0 =>
        rw [hph] at hpa
        simp only [Option.map_some', Option.some.injEq, Prod.mk.injEq] at hpa
        obtain ⟨rfl, rfl, rfl⟩ := hpa
        obtain ⟨o1, o2, o3⟩ := parseHost_ok sp a h0 hph
        exact ⟨o1, o2, o3, by simp, by simp, by simp, by simp⟩
    | some hp2 =>
      rw [hsf] at hpa
      simp only [] at hpa
      cases hph : parseHost sp hp2.1 with
      | none => rw [hph] at hpa; simp at hpa
      | some h0 =>
        cases hpp : parsePort hp2.2 with
        | none => rw [hph, hpp] at hpa; simp at hpa
        | some po0 =>
          rw [hph, hpp] at hpa
          simp only [Option.some.injEq, Prod.mk.injEq] at hpa
          obtain ⟨rfl, rfl, rfl⟩ := hpa
          obtain ⟨o1, o2, o3⟩ := parseHost_ok sp hp2.1 h0 hph
          exact ⟨o1, o2, o3, by simp, by simp, by simp,
            parsePort_ok hp2.2 po0 hpp⟩
  | some pr =>
    rw [hsl] at hpa
    simp only [] at hpa
    obtain ⟨ha, hnb⟩ := splitLast_eq '@' a pr.1 pr.2 hsl
    have hmem : ∀ c ∈ pr.1, c ∈ a := by
      intro c hc
      rw [ha]
      exact List.mem_append.mpr (Or.inl hc)
    have hhead : pr.1 ≠ [] → a.head? = pr.1.head? := by
      intro hne
      rw [ha]
      exact head?_append_left pr.1 _ hne
    cases hsf : splitFirst ':' pr.2 with
    | none =>
      rw [hsf] at hpa
      simp only [] at hpa
      cases hph : parseHost sp pr.2 with
      | none => rw [hph] at hpa; simp at hpa
      | some h0 =>
        rw [hph] at hpa
        simp only [Option.map_some', Option.some.injEq, Prod.mk.injEq] at hpa
        obtain ⟨hui, rfl, rfl⟩ := hpa
        obtain ⟨o1, o2, o3⟩ := parseHost_ok sp pr.2 h0 hph
        subst hui
        by_cases hp1 : pr.1 = []
        · rw [if_pos hp1]
          exact ⟨o1, o2, o3, by simp, by simp, by simp, by simp⟩
        · rw [if_neg hp1]
          refine ⟨o1, o2, o3, by simpa using hp1, ?_, ?_, by simp⟩
          · intro l hl c hc
            rw [Option.some.injEq] at hl
            subst hl
            exact hmem c hc
          · intro l c hl hc
            rw [Option.some.injEq] at hl
            subst hl
            rw [hhead hp1]
            exact hc
    | some hp2 =>
      rw [hsf] at hpa
      simp only [] at hpa
      cases hph : parseHost sp hp2.1 with
      | none => rw [hph] at hpa; simp at hpa
      | some h0 =>
        cases hpp : parsePort hp2.2 with
        | none => rw [hph, hpp] at hpa; simp at hpa
        | some po0 =>
          rw [hph, hpp] at hpa
          simp only [Option.some.injEq, Prod.mk.injEq] at hpa
          obtain ⟨hui, rfl, rfl⟩ := hpa
          obtain ⟨o1, o2, o3⟩ := parseHost_ok sp hp2.1 h0 hph
          subst hui
          by_cases hp1 : pr.1 = []
          · rw [if_pos hp1]
            exact ⟨o1, o2, o3, by simp, by simp, by simp,
              parsePort_ok hp2.2 po0 hpp⟩
          · rw [if_neg hp1]
            refine ⟨o1, o2, o3, by simpa using hp1, ?_, ?_,
              parsePort_ok hp2.2 po0 hpp⟩
            · intro l hl c hc
              rw [Option.some.injEq] at hl
              subst hl
              exact hmem c hc
            · intro l c hl hc
              rw [Option.some.injEq] at hl
              subst hl
              rw [hhead hp1]
              exact hc

theorem headMem {α : Type} (l : List α) (x : α) (h : l.head? = some x) :
    x ∈ l := by
  cases l with
  | nil => simp at h
  | cons y ys =>
    simp only [List.head?_cons, Option.some.injEq] at h
    simp [h]

theorem dropWhile_head_not (p : Char → Bool) (l : List Char) :
    ∀ x, (l.dropWhile p).head? = some x → p x = false := by
  induction l with
  | nil => intro x hx; simp [List.dropWhile] at hx
  | cons y ys ih =>
    intro x hx
    by_cases hy : p y
    · rw [List.dropWhile_cons, if_pos hy] at hx
      exact ih x hx
    · rw [List.dropWhile_cons, if_neg hy] at hx
      simp only [List.head?_cons, Option.some.injEq] at hx
      rw [← hx]
      simpa using hy

theorem parsePQF_ok (t : List Char) :
    (∀ c ∈ (parsePQF t).1, c ≠ '?' ∧ c ≠ '#') ∧
    (∀ q0, (parsePQF t).2.1 = some q0 → '#' ∉ q0) ∧
    (∃ r, t = (parsePQF t).1 ++ r) := by
  unfold parsePQF
  cases hh : splitFirst '#' t with
  | none =>
    have hht : '#' ∉ t := (splitFirst_none_iff '#' t).mp hh
    simp only []
    cases hq : splitFirst '?' t with
    | none =>
      have hqt : '?' ∉ t := (splitFirst_none_iff '?' t).mp hq
      refine ⟨?_, by simp, ⟨[], by simp⟩⟩
      intro c hc
      exact ⟨fun hcq => hqt (hcq ▸ hc), fun hch => hht (hch ▸ hc)⟩
    | some p =>
      obtain ⟨ht, hnq⟩ := splitFirst_eq '?' t p.1 p.2 hq
      refine ⟨?_, ?_, ⟨'?' :: p.2, ht⟩⟩
      · intro c hc
        refine ⟨fun hcq => hnq (hcq ▸ hc), fun hch => hht ?_⟩
        rw [ht]
        exact List.mem_append.mpr (Or.inl (hch ▸ hc))
      · intro q0 hq0 hm
        rw [Option.some.injEq] at hq0
        subst hq0
        exact hht (by rw [ht]; simp [hm])
  | some p =>
    obtain ⟨ht, hnh⟩ := splitFirst_eq '#' t p.1 p.2 hh
    simp only []
    cases hq : splitFirst '?' p.1 with
    | none =>
      have hqt : '?' ∉ p.1 := (splitFirst_none_iff '?' p.1).mp hq
      refine ⟨?_, by simp, ⟨'#' :: p.2, ht⟩⟩
      intro c hc
      exact ⟨fun hcq => hqt (hcq ▸ hc), fun hch => hnh (hch ▸ hc)⟩
    | some p2 =>
      obtain ⟨hp1, hnq⟩ := splitFirst_eq '?' p.1 p2.1 p2.2 hq
      refine ⟨?_, ?_, ⟨'?' :: p2.2 ++ '#' :: p.2, by rw [ht, hp1]; simp⟩⟩
      · intro c hc
        refine ⟨fun hcq => hnq (hcq ▸ hc), fun hch => hnh ?_⟩
        rw [hp1]
        exact List.mem_append.mpr (Or.inl (hch ▸ hc))
      · intro q0 hq0 hm
        rw [Option.some.injEq] at hq0
        subst hq0
        exact hnh (by rw [hp1]; simp [hm])

theorem take_two_of_append (a r : List Char)
    (h : a.take 2 = ['/', '/']) : (a ++ r).take 2 = ['/', '/'] := by
  have hlen : 2 ≤ a.length := by
    have h2 := congrArg List.length h
    rw [List.length_take] at h2
    simp only [List.length_cons, List.length_singleton] at h2
    omega
  rw [List.take_append_eq_append_take, h,
    show 2 - a.length = 0 from by omega]
  simp

theorem isAuthEnd_cases (c : Char) (h : isAuthEnd c = true) :
    c = '/' ∨ c = '?' ∨ c = '#' := by
  unfold isAuthEnd at h
  simp at h
  tauto

theorem parse_wf (s : List Char) (u : URLRec)
    (h : parseChars s = some u) : Wf u := by
  unfold parseChars at h
  split at h
  · simp at h
  rename_i sr hsp
  by_cases hv : validScheme sr.1 = true
  · rw [if_pos hv] at h
    unfold parseAfterScheme at h
    simp only [] at h
    have hvl : validScheme (sr.1.map lowerChar) = true :=
      validScheme_map_lower _ hv
    have hll : (sr.1.map lowerChar).map lowerChar = sr.1.map lowerChar := by
      rw [List.map_map]
      exact List.map_congr_left (fun c _ => lowerChar_idem c)
    by_cases hspec : specialScheme (sr.1.map lowerChar) = true
    · rw [if_pos hspec] at h
      cases hpa : parseAuthority true
          (breakWhen isAuthEnd
            (sr.2.dropWhile (fun c => c = '/' || c = '\\'))).1 with
      | none => rw [hpa] at h; simp at h
      | some hp =>
        rw [hpa] at h
        simp only [Option.some.injEq] at h
        subst h
        obtain ⟨o1, o2, o3, o4, o5, o6, o7⟩ :=
          parseAuthority_ok true _ hp.1 hp.2.1 hp.2.2 (by rw [hpa])
        obtain ⟨q1, q2, q3⟩ := parsePQF_ok
          (breakWhen isAuthEnd
            (sr.2.dropWhile (fun c => c = '/' || c = '\\'))).2
        obtain ⟨b1, b2, b3⟩ := breakWhen_eq isAuthEnd
          (sr.2.dropWhile (fun c => c = '/' || c = '\\'))
        have hpathsep : ∀ c ∈ (if (parsePQF (breakWhen isAuthEnd
            (sr.2.dropWhile (fun c => c = '/' || c = '\\'))).2).1 = []
            then ['/']
            else (parsePQF (breakWhen isAuthEnd
              (sr.2.dropWhile (fun c => c = '/' || c = '\\'))).2).1),
            c ≠ '?' ∧ c ≠ '#' := by
          split
          · intro c hc
            simp only [List.mem_singleton] at hc
            subst hc
            exact ⟨by decide, by decide⟩
          · exact q1
        have hpathhead : (if (parsePQF (breakWhen isAuthEnd
            (sr.2.dropWhile (fun c => c = '/' || c = '\\'))).2).1 = []
            then ['/']
            else (parsePQF (breakWhen isAuthEnd
              (sr.2.dropWhile (fun c => c = '/' || c = '\\'))).2).1).head? =
            some '/' := by
          split
          · rfl
          · rename_i hne
            obtain ⟨r, hr⟩ := q3
            cases hc : (parsePQF (breakWhen isAuthEnd
                (sr.2.dropWhile (fun c => c = '/' || c = '\\'))).2).1.head? with
            | none =>
              rw [List.head?_eq_none_iff] at hc
              exact absurd hc hne
            | some c =>
              have hc2 : (breakWhen isAuthEnd
                  (sr.2.dropWhile (fun c => c = '/' || c = '\\'))).2.head? =
                  some c := by
                rw [hr, head?_append_left _ _ hne]
                exact hc
              have hce : isAuthEnd c = true := b3 c hc2
              have hcm := q1 c (headMem _ c hc)
              rcases isAuthEnd_cases c hce with h1 | h1 | h1
              · rw [h1]
              · exact absurd h1 hcm.1
              · exact absurd h1 hcm.2
        refine ⟨hvl, hll, fun _ => rfl, o1, o2, fun _ => o3 rfl,
          by intro hf; exact absurd hf (by simp), o4, ?_, ?_,
          o7, hpathsep, fun _ => Or.inr hpathhead,
          fun _ => hpathhead, by intro hf; exact absurd hf (by simp), q2⟩
        · intro l hl c hc
          have := b2 c (o5 l hl c hc)
          exact this
        · intro _ l c hl hc
          have hca := o6 l c hl hc
          have hcb : (breakWhen isAuthEnd
              (sr.2.dropWhile (fun c0 => c0 = '/' || c0 = '\\'))).1 ≠ [] := by
            intro hnil
            rw [hnil] at hca
            simp at hca
          have hcr : (sr.2.dropWhile
              (fun c0 => c0 = '/' || c0 = '\\')).head? = some c := by
            rw [← b1, head?_append_left _ _ hcb]
            exact hca
          have := dropWhile_head_not _ _ c hcr
          constructor
          · intro hcon
            rw [hcon] at this
            simp at this
          · intro hcon
            rw [hcon] at this
            simp at this
    · rw [if_neg hspec] at h
      by_cases ht2 : sr.2.take 2 = ['/', '/']
      · rw [if_pos ht2] at h
        cases hpa : parseAuthority false
            (breakWhen isAuthEnd (sr.2.drop 2)).1 with
        | none => rw [hpa] at h; simp at h
        | some hp =>
          rw [hpa] at h
          simp only [Option.some.injEq] at h
          subst h
          obtain ⟨o1, o2, o3, o4, o5, o6, o7⟩ :=
            parseAuthority_ok false _ hp.1 hp.2.1 hp.2.2 (by rw [hpa])
          obtain ⟨q1, q2, q3⟩ := parsePQF_ok
            (breakWhen isAuthEnd (sr.2.drop 2)).2
          obtain ⟨b1, b2, b3⟩ := breakWhen_eq isAuthEnd (sr.2.drop 2)
          refine ⟨hvl, hll, fun hf => absurd hf hspec, o1, o2,
            fun hf => absurd hf hspec,
            by intro hf; exact absurd hf (by simp), o4, ?_,
            fun hf => absurd hf hspec, o7, q1, ?_,
            fun hf => absurd hf hspec,
            by intro hf; exact absurd hf (by simp), q2⟩
          · intro l hl c hc
            exact b2 c (o5 l hl c hc)
          · intro _
            by_cases hne : (parsePQF
                (breakWhen isAuthEnd (sr.2.drop 2)).2).1 = []
            · exact Or.inl hne
            · refine Or.inr ?_
              obtain ⟨r, hr⟩ := q3
              cases hc : (parsePQF
                  (breakWhen isAuthEnd (sr.2.drop 2)).2).1.head? with
              | none =>
                rw [List.head?_eq_none_iff] at hc
                exact absurd hc hne
              | some c =>
                have hc2 : (breakWhen isAuthEnd
                    (sr.2.drop 2)).2.head? = some c := by
                  rw [hr, head?_append_left _ _ hne]
                  exact hc
                have hce : isAuthEnd c = true := b3 c hc2
                have hcm := q1 c (headMem _ c hc)
                rcases isAuthEnd_cases c hce with h1 | h1 | h1
                · rw [h1]
                · exact absurd h1 hcm.1
                · exact absurd h1 hcm.2
      · rw [if_neg ht2] at h
        simp only [Option.some.injEq] at h
        subst h
        obtain ⟨q1, q2, q3⟩ := parsePQF_ok sr.2
        refine ⟨hvl, hll, fun hf => absurd hf hspec, by simp, by simp,
          fun hf => absurd hf hspec, fun _ => ⟨rfl, rfl, rfl⟩,
          by simp, by simp, fun hf => absurd hf hspec, by simp,
          q1, by intro hf; exact absurd hf (by simp),
          fun hf => absurd hf hspec, ?_, q2⟩
        intro _ hcon
        obtain ⟨r, hr⟩ := q3
        exact ht2 (by rw [hr]; exact take_two_of_append _ r hcon)
  · rw [if_neg hv] at h
    simp at h

theorem badHost_not_authEnd (c : Char) (h : badHostChar c = false) :
    isAuthEnd c = false := by
  cases hc : isAuthEnd c with
  | false => rfl
  | true =>
    rcases isAuthEnd_cases c hc with h1 | h1 | h1 <;>
      exact absurd (h1 ▸ h) (by decide)

theorem badHost_not_slashy (c : Char) (h : badHostChar c = false) :
    (decide (c = '/') || decide (c = '\\')) = false := by
  simp only [Bool.or_eq_false_iff, decide_eq_false_iff_not]
  exact ⟨fun e => absurd (e ▸ h) (by decide), fun e => absurd (e ▸ h) (by decide)⟩

theorem digit_not_authEnd (c : Char) (h : c.isDigit = true) :
    isAuthEnd c = false := by
  cases hc : isAuthEnd c with
  | false => rfl
  | true =>
    rcases isAuthEnd_cases c hc with h1 | h1 | h1 <;>
      exact absurd (h1 ▸ h) (by decide)

theorem digit_ne_at (c : Char) (h : c.isDigit = true) : c ≠ '@' :=
  fun e => absurd (e ▸ h) (by decide)

theorem parseHost_build (sp : Bool) (host : List Char)
    (hh : ∀ c ∈ host, badHostChar c = false)
    (hl : host.map lowerChar = host)
    (hsp : sp = true → host ≠ []) :
    parseHost sp host = some host := by
  unfold parseHost
  by_cases h0 : host = []
  · rw [if_pos h0]
    cases sp with
    | true => exact absurd h0 (hsp rfl)
    | false => rw [if_neg (by simp), h0]
  · rw [if_neg h0, if_pos ?_, hl]
    refine List.all_eq_true.mpr ?_
    intro c hc
    simp [hh c hc]

/-- The serialized authority component. -/
def authChunk (ui : Option (List Char)) (host : List Char)
    (po : Option (List Char)) : List Char :=
  (match ui with | some l => l ++ ['@'] | none => []) ++ host ++
  (match po with | some p => ':' :: p | none => [])

theorem parseAuthority_build (sp : Bool) (ui : Option (List Char))
    (host : List Char) (po : Option (List Char))
    (hh : ∀ c ∈ host, badHostChar c = false)
    (hl : host.map lowerChar = host)
    (hsp : sp = true → host ≠ [])
    (hui : ui ≠ some [])
    (hpo : ∀ p, po = some p → p ≠ [] ∧ p.all Char.isDigit = true) :
    parseAuthority sp (authChunk ui host po) = some (ui, host, po) := by
  have hnoatH : '@' ∉ host := fun hm => absurd (hh '@' hm) (by decide)
  have hnocolH : ':' ∉ host := fun hm => absurd (hh ':' hm) (by decide)
  cases po with
  | none =>
    cases ui with
    | none =>
      unfold parseAuthority authChunk
      rw [splitLast_none '@' _ (by simpa using hnoatH)]
      simp only [List.nil_append, List.append_nil]
      rw [splitFirst_none ':' host hnocolH,
        parseHost_build sp host hh hl hsp]
      rfl
    | some l =>
      have hlne : l ≠ [] := fun hc => hui (by rw [hc])
      unfold parseAuthority authChunk
      have hform : ((l ++ ['@']) ++ host ++ ([] : List Char)) =
          l ++ '@' :: host := by simp
      rw [hform, splitLast_append '@' l host hnoatH]
      simp only [if_neg hlne]
      rw [splitFirst_none ':' host hnocolH,
        parseHost_build sp host hh hl hsp]
      rfl
  | some p =>
    have hpd := hpo p rfl
    have hnoatP : '@' ∉ ':' :: p := by
      intro hm
      rcases List.mem_cons.mp hm with h1 | h2
      · exact absurd h1.symm (by decide)
      · exact digit_ne_at '@' (List.all_eq_true.mp hpd.2 '@' h2) rfl
    cases ui with
    | none =>
      unfold parseAuthority authChunk
      have hnoat : '@' ∉ ([] : List Char) ++ host ++ ':' :: p := by
        intro hm
        simp only [List.nil_append] at hm
        rcases List.mem_append.mp hm with h1 | h2
        · exact hnoatH h1
        · exact hnoatP h2
      rw [splitLast_none '@' _ hnoat]
      simp only [List.nil_append]
      rw [splitFirst_append ':' host p hnocolH]
      simp only []
      rw [parseHost_build sp host hh hl hsp]
      unfold parsePort
      rw [if_neg hpd.1, if_pos hpd.2]
    | some l =>
      have hlne : l ≠ [] := fun hc => hui (by rw [hc])
      unfold parseAuthority authChunk
      have hform : ((l ++ ['@']) ++ host ++ ':' :: p) =
          l ++ '@' :: (host ++ ':' :: p) := by simp
      have hnoat : '@' ∉ host ++ ':' :: p := by
        intro hm
        rcases List.mem_append.mp hm with h1 | h2
        · exact hnoatH h1
        · exact hnoatP h2
      rw [hform, splitLast_append '@' l _ hnoat]
      simp only [if_neg hlne]
      rw [splitFirst_append ':' host p hnocolH]
      simp only []
      rw [parseHost_build sp host hh hl hsp]
      unfold parsePort
      rw [if_neg hpd.1, if_pos hpd.2]

/-- The serialized query/fragment tail. -/
def qfChunk (q f : Option (List Char)) : List Char :=
  (match q with | some q0 => '?' :: q0 | none => []) ++
  (match f with | some f0 => '#' :: f0 | none => [])

theorem parsePQF_build (p : List Char) (q f : Option (List Char))
    (hp : ∀ c ∈ p, c ≠ '?' ∧ c ≠ '#')
    (hq : ∀ q0, q = some q0 → '#' ∉ q0) :
    parsePQF (p ++ qfChunk q f) = (p, q, f) := by
  have hpq : '?' ∉ p := fun hm => (hp '?' hm).1 rfl
  have hph : '#' ∉ p := fun hm => (hp '#' hm).2 rfl
  cases q with
  | none =>
    cases f with
    | none =>
      unfold parsePQF qfChunk
      simp only [List.append_nil]
      rw [splitFirst_none '#' p hph]
      simp only []
      rw [splitFirst_none '?' p hpq]
    | some f0 =>
      unfold parsePQF qfChunk
      simp only [List.nil_append]
      rw [splitFirst_append '#' p f0 hph]
      simp only []
      rw [splitFirst_none '?' p hpq]
  | some q0 =>
    have hqh : '#' ∉ q0 := hq q0 rfl
    have hnoh : '#' ∉ p ++ '?' :: q0 := by
      intro hm
      rcases List.mem_append.mp hm with h1 | h2
      · exact hph h1
      · rcases List.mem_cons.mp h2 with h3 | h4
        · exact absurd h3.symm (by decide)
        · exact hqh h4
    cases f with
    | none =>
      unfold parsePQF qfChunk
      simp only [List.append_nil]
      rw [splitFirst_none '#' (p ++ '?' :: q0) hnoh]
      simp only []
      rw [splitFirst_append '?' p q0 hpq]
    | some f0 =>
      unfold parsePQF qfChunk
      simp only []
      rw [show p ++ ('?' :: q0 ++ '#' :: f0) = (p ++ '?' :: q0) ++ '#' :: f0
        from by simp]
      rw [splitFirst_append '#' (p ++ '?' :: q0) f0 hnoh]
      simp only []
      rw [splitFirst_append '?' p q0 hpq]

theorem qf_head_authEnd (path : List Char) (q f : Option (List Char))
    (hpath : path = [] ∨ path.head? = some '/') :
    ∀ x, (path ++ qfChunk q f).head? = some x → isAuthEnd x = true := by
  intro x hx
  cases path with
  | cons p0 ps =>
    rcases hpath with h1 | h1
    · simp at h1
    · simp only [List.head?_cons, Option.some.injEq] at h1
      rw [List.cons_append, List.head?_cons, Option.some.injEq] at hx
      rw [← hx, h1]
      rfl
  | nil =>
    rw [List.nil_append] at hx
    unfold qfChunk at hx
    cases q with
    | some q0 =>
      simp only [List.cons_append, List.head?_cons, Option.some.injEq] at hx
      rw [← hx]
      rfl
    | none =>
      cases f with
      | some f0 =>
        simp only [List.nil_append, List.head?_cons, Option.some.injEq] at hx
        rw [← hx]
        rfl
      | none => simp [qfChunk] at hx

theorem opaque_rest_take2 (path : List Char) (q f : Option (List Char))
    (hp2 : path.take 2 ≠ ['/', '/']) :
    (path ++ qfChunk q f).take 2 ≠ ['/', '/'] := by
  cases path with
  | nil =>
    simp only [List.nil_append]
    unfold qfChunk
    cases q with
    | some q0 =>
      intro hc
      simp only [List.cons_append, List.take_cons] at hc
      have := List.cons.inj hc
      exact absurd this.1 (by decide)
    | none =>
      cases f with
      | some f0 =>
        intro hc
        simp only [List.nil_append, List.take_cons] at hc
        have := List.cons.inj hc
        exact absurd this.1 (by decide)
      | none => simp [qfChunk]
  | cons a ps =>
    cases ps with
    | cons b ps2 =>
      intro hc
      simp only [List.cons_append, List.take_cons] at hc
      have h1 := List.cons.inj hc
      have h2 := List.cons.inj h1.2
      exact hp2 (by
        rw [show (a :: b :: ps2).take 2 = [a, b] from rfl, h1.1, h2.1])
    | nil =>
      by_cases ha : a = '/'
      · subst ha
        simp only [List.cons_append, List.nil_append]
        unfold qfChunk
        cases q with
        | some q0 =>
          intro hc
          simp only [List.cons_append, List.take_cons] at hc
          have h1 := List.cons.inj hc
          have h2 := List.cons.inj h1.2
          exact absurd h2.1 (by decide)
        | none =>
          cases f with
          | some f0 =>
            intro hc
            simp only [List.nil_append, List.take_cons] at hc
            have h1 := List.cons.inj hc
            have h2 := List.cons.inj h1.2
            exact absurd h2.1 (by decide)
          | none =>
            simp [qfChunk]
      · intro hc
        simp only [List.cons_append, List.take_cons] at hc
        have h1 := List.cons.inj hc
        exact ha h1.1

theorem authChunk_head_special (ui : Option (List Char)) (host : List Char)
    (po : Option (List Char))
    (hh : ∀ c ∈ host, badHostChar c = false)
    (hne : host ≠ [])
    (hui : ui ≠ some [])
    (huih : ∀ l c, ui = some l → l.head? = some c → c ≠ '/' ∧ c ≠ '\\') :
    ∃ a0 A, authChunk ui host po = a0 :: A ∧
      (decide (a0 = '/') || decide (a0 = '\\')) = false := by
  cases ui with
  | some l =>
    cases l with
    | nil => exact absurd rfl hui
    | cons c l' =>
      refine ⟨c, (l' ++ ['@']) ++ host ++ (match po with
        | some p => ':' :: p | none => []), ?_, ?_⟩
      · unfold authChunk
        simp
      · have := huih (c :: l') c rfl rfl
        simp [this.1, this.2]
  | none =>
    cases host with
    | nil => exact absurd rfl hne
    | cons h0 host' =>
      refine ⟨h0, host' ++ (match po with
        | some p => ':' :: p | none => []), ?_, ?_⟩
      · unfold authChunk
        simp
      · exact badHost_not_slashy h0 (hh h0 (by simp))

theorem authChunk_no_authEnd (ui : Option (List Char)) (host : List Char)
    (po : Option (List Char))
    (hh : ∀ c ∈ host, badHostChar c = false)
    (huiok : ∀ l, ui = some l → ∀ c ∈ l, isAuthEnd c = false)
    (hpo : ∀ p, po = some p → p.all Char.isDigit = true) :
    ∀ x ∈ authChunk ui host po, isAuthEnd x = false := by
  intro x hx
  unfold authChunk at hx
  rcases List.mem_append.mp hx with h1 | h2
  · rcases List.mem_append.mp h1 with h3 | h4
    · cases ui with
      | none => simp at h3
      | some l =>
        rcases List.mem_append.mp h3 with h5 | h6
        · exact huiok l rfl x h5
        · rw [List.mem_singleton] at h6
          rw [h6]
          rfl
    · exact badHost_not_authEnd x (hh x h4)
  · cases po with
    | none => simp at h2
    | some p =>
      rcases List.mem_cons.mp h2 with h3 | h4
      · rw [h3]
        rfl
      · exact digit_not_authEnd x (List.all_eq_true.mp (hpo p rfl) x h4)

theorem parseChars_split (sch rest : List Char) (hnc : ':' ∉ sch) :
    parseChars (sch ++ ':' :: rest) =
    (if validScheme sch = true then parseAfterScheme (sch.map lowerChar) rest
     else none) := by
  unfold parseChars
  rw [splitFirst_append ':' sch rest hnc]

theorem wf_roundtrip (u : URLRec) (w : Wf u) :
    parseChars (serializeChars u) = some u := by
  obtain ⟨sch, au, ui, host, po, pa, q, f⟩ := u
  have wsv : validScheme sch = true := w.scheme_valid
  have wsl : List.map lowerChar sch = sch := w.scheme_lower
  have wsa : specialScheme sch = true → au = true := w.special_auth
  have whok : ∀ c ∈ host, badHostChar c = false := w.host_ok
  have whl : List.map lowerChar host = host := w.host_lower
  have whn : specialScheme sch = true → host ≠ [] := w.host_ne
  have wop : au = false → host = [] ∧ ui = none ∧ po = none := w.opaque_fields
  have wun : ui ≠ some [] := w.ui_ne
  have wuo : ∀ l, ui = some l → ∀ c ∈ l, isAuthEnd c = false := w.ui_ok
  have wuh : specialScheme sch = true → ∀ l c, ui = some l →
      l.head? = some c → c ≠ '/' ∧ c ≠ '\\' := w.ui_head
  have wpo : ∀ p, po = some p → p ≠ [] ∧ p.all Char.isDigit = true := w.port_ok
  have wps : ∀ c ∈ pa, c ≠ '?' ∧ c ≠ '#' := w.path_sep
  have wpsl : au = true → pa = [] ∨ pa.head? = some '/' := w.path_slash
  have wpsp : specialScheme sch = true → pa.head? = some '/' := w.path_special
  have wpop : au = false → pa.take 2 ≠ ['/', '/'] := w.path_opaque
  have wq : ∀ q0, q = some q0 → '#' ∉ q0 := w.query_ok
  have hnc : ':' ∉ sch := validScheme_no_colon sch wsv
  cases au with
  | true =>
    have hser : serializeChars ⟨sch, true, ui, host, po, pa, q, f⟩ =
        sch ++ ':' :: ('/' :: '/' ::
          (authChunk ui host po ++ (pa ++ qfChunk q f))) := by
      unfold serializeChars authChunk qfChunk
      simp
    have hsplit : splitFirst ':'
        (serializeChars ⟨sch, true, ui, host, po, pa, q, f⟩) =
        some (sch, '/' :: '/' ::
          (authChunk ui host po ++ (pa ++ qfChunk q f))) := by
      rw [hser]
      exact splitFirst_append ':' sch _ hnc
    rw [hser, parseChars_split sch _ hnc, if_pos wsv, wsl]
    unfold parseAfterScheme
    simp only []
    by_cases hs : specialScheme sch = true
    · rw [if_pos hs]
      obtain ⟨a0, A, hA, ha0⟩ := authChunk_head_special ui host po whok
        (whn hs) wun (wuh hs)
      have hdrop : (('/' :: '/' ::
          (authChunk ui host po ++ (pa ++ qfChunk q f))).dropWhile
            (fun c => decide (c = '/') || decide (c = '\\'))) =
          authChunk ui host po ++ (pa ++ qfChunk q f) := by
        rw [List.dropWhile_cons, if_pos (by decide),
          List.dropWhile_cons, if_pos (by decide), hA,
          List.cons_append, List.dropWhile_cons, if_neg (by simp [ha0])]
      have hbreak : breakWhen isAuthEnd
          (authChunk ui host po ++ (pa ++ qfChunk q f)) =
          (authChunk ui host po, pa ++ qfChunk q f) := by
        refine breakWhen_append isAuthEnd _ _ ?_ ?_
        · exact authChunk_no_authEnd ui host po whok wuo
            (fun p hp => (wpo p hp).2)
        · exact qf_head_authEnd pa q f (Or.inr (wpsp hs))
      rw [hdrop, hbreak]
      simp only []
      rw [parseAuthority_build true ui host po whok whl
        (fun _ => whn hs) wun wpo]
      simp only []
      rw [parsePQF_build pa q f wps wq]
      simp only []
      have hpane : pa ≠ [] := by
        intro hc
        rw [hc] at wpsp
        exact absurd (wpsp hs) (by simp)
      rw [if_neg hpane]
    · rw [if_neg hs]
      rw [if_pos (show (('/' :: '/' ::
          (authChunk ui host po ++ (pa ++ qfChunk q f))).take 2) =
          ['/', '/'] from rfl)]
      rw [show (('/' :: '/' ::
          (authChunk ui host po ++ (pa ++ qfChunk q f))).drop 2) =
          authChunk ui host po ++ (pa ++ qfChunk q f) from rfl]
      have hbreak : breakWhen isAuthEnd
          (authChunk ui host po ++ (pa ++ qfChunk q f)) =
          (authChunk ui host po, pa ++ qfChunk q f) := by
        refine breakWhen_append isAuthEnd _ _ ?_ ?_
        · exact authChunk_no_authEnd ui host po whok wuo
            (fun p hp => (wpo p hp).2)
        · exact qf_head_authEnd pa q f (wpsl rfl)
      rw [hbreak]
      simp only []
      rw [parseAuthority_build false ui host po whok whl
        (fun hc => absurd hc (by decide)) wun wpo]
      simp only []
      rw [parsePQF_build pa q f wps wq]
  | false =>
    obtain ⟨hh0, hu0, hp0⟩ := wop rfl
    subst hh0 hu0 hp0
    have hser : serializeChars ⟨sch, false, none, [], none, pa, q, f⟩ =
        sch ++ ':' :: (pa ++ qfChunk q f) := by
      unfold serializeChars qfChunk
      simp
    have hsplit : splitFirst ':'
        (serializeChars ⟨sch, false, none, [], none, pa, q, f⟩) =
        some (sch, pa ++ qfChunk q f) := by
      rw [hser]
      exact splitFirst_append ':' sch _ hnc
    rw [hser, parseChars_split sch _ hnc, if_pos wsv, wsl]
    unfold parseAfterScheme
    simp only []
    have hs : specialScheme sch = false := by
      cases hsc : specialScheme sch with
      | false => rfl
      | true => exact absurd (wsa hsc) (by decide)
    rw [if_neg (by rw [hs]; exact Bool.false_ne_true)]
    rw [if_neg (opaque_rest_take2 pa q f (wpop rfl))]
    rw [parsePQF_build pa q f wps wq]

theorem wf_clearHash (u : URLRec) (w : Wf u) : Wf (clearHash u) :=
  ⟨w.scheme_valid, w.scheme_lower, w.special_auth, w.host_ok, w.host_lower,
   w.host_ne, w.opaque_fields, w.ui_ne, w.ui_ok, w.ui_head, w.port_ok,
   w.path_sep, w.path_slash, w.path_special, w.path_opaque, w.query_ok⟩

theorem wf_stripWWW (u : URLRec) (w : Wf u) : Wf (stripWWW u) := by
  unfold stripWWW
  by_cases hw : u.host.take 4 = "www.".data
  · rw [if_pos hw]
    cases hph : parseHost (specialScheme u.scheme) (u.host.drop 4) with
    | none => exact w
    | some h2 =>
      obtain ⟨o1, o2, o3⟩ := parseHost_ok _ _ _ hph
      refine ⟨w.scheme_valid, w.scheme_lower, w.special_auth, o1, o2, o3, ?_,
        w.ui_ne, w.ui_ok, w.ui_head, w.port_ok, w.path_sep, w.path_slash,
        w.path_special, w.path_opaque, w.query_ok⟩
      intro hf
      obtain ⟨he, _, _⟩ := w.opaque_fields hf
      rw [he] at hw
      simp at hw
  · rw [if_neg hw]
    exact w

theorem clearHash_frag (u : URLRec) : (clearHash u).frag = none := rfl

theorem stripWWW_frag (v : URLRec) : (stripWWW v).frag = v.frag := by
  unfold stripWWW
  split
  · cases parseHost (specialScheme v.scheme) (v.host.drop 4) <;> rfl
  · rfl

theorem clearHash_of_none (v : URLRec) (h : v.frag = none) :
    clearHash v = v := by
  obtain ⟨sch, au, ui, ho, po, pa, q, f⟩ := v
  have h2 : f = none := h
  subst h2
  rfl

theorem stripWWW_of_not_www (v : URLRec) (h : v.host.take 4 ≠ "www.".data) :
    stripWWW v = v := by
  unfold stripWWW
  rw [if_neg h]

/-- Idempotence of the stage1 `normalizeUrl` (character level). -/
theorem normalizeUrl1C_idem (s y : List Char)
    (h : normalizeUrl1C s = some y) : normalizeUrl1C y = some y := by
  unfold normalizeUrl1C at h ⊢
  cases hp : parseChars s with
  | none => rw [hp] at h; simp at h
  | some u =>
    rw [hp] at h
    simp only [Option.map_some', Option.some.injEq] at h
    subst h
    have wf1 : Wf (clearHash u) := wf_clearHash u (parse_wf s u hp)
    rw [wf_roundtrip (clearHash u) wf1]
    simp only [Option.map_some', Option.some.injEq]
    rw [clearHash_of_none (clearHash u) (clearHash_frag u)]

/-- The modular `normalizeUrl` reparses to the normalized record. -/
theorem normalizeUrlMC_parse (s y : List Char)
    (h : normalizeUrlMC s = some y) :
    ∃ u, parseChars s = some u ∧
      y = serializeChars (stripWWW (clearHash u)) ∧
      parseChars y = some (stripWWW (clearHash u)) := by
  unfold normalizeUrlMC at h
  cases hp : parseChars s with
  | none => rw [hp] at h; simp at h
  | some u =>
    rw [hp] at h
    simp only [Option.map_some', Option.some.injEq] at h
    subst h
    exact ⟨u, rfl, rfl,
      wf_roundtrip _ (wf_stripWWW _ (wf_clearHash u (parse_wf s u hp)))⟩

/-- Conditional idempotence of the modular `normalizeUrl`: it is stable at
any output whose host does not still begin with `www.`. -/
theorem normalizeUrlMC_idem (s y : List Char)
    (h : normalizeUrlMC s = some y)
    (hw : ∀ u, parseChars y = some u → u.host.take 4 ≠ "www.".data) :
    normalizeUrlMC y = some y := by
  obtain ⟨u, _, hy, hr⟩ := normalizeUrlMC_parse s y h
  unfold normalizeUrlMC
  rw [hr]
  simp only [Option.map_some', Option.some.injEq]
  rw [clearHash_of_none _ (by rw [stripWWW_frag]; exact clearHash_frag u),
    stripWWW_of_not_www _ (hw _ hr), hy]

theorem validScheme_not_mem (s : List Char) (c : Char)
    (h : validScheme s = true) (h1 : isSchemeStart c = false)
    (h2 : isSchemeChar c = false) : c ∉ s := by
  cases s with
  | nil => simp
  | cons x xs =>
    rw [validScheme, Bool.and_eq_true] at h
    intro hm
    rcases List.mem_cons.mp hm with hx | hx
    · rw [← hx] at h
      rw [h.1] at h1
      exact absurd h1 (by decide)
    · have := List.all_eq_true.mp h.2 _ hx
      rw [this] at h2
      exact absurd h2 (by decide)

/-- A wellformed URL record without a fragment serializes to a string
containing no `#` — normalized URLs are fragment-free. -/
theorem serialize_no_hash (u : URLRec) (w : Wf u) (hf : u.frag = none) :
    '#' ∉ serializeChars u := by
  have hsch : '#' ∉ u.scheme :=
    validScheme_not_mem _ '#' w.scheme_valid (by decide) (by decide)
  have hpath : '#' ∉ u.path := fun hm => (w.path_sep '#' hm).2 rfl
  have hq : '#' ∉ (match u.query with
      | some q => '?' :: q | none => ([] : List Char)) := by
    cases hq0 : u.query with
    | none => simp
    | some q0 =>
      intro hm
      rcases List.mem_cons.mp hm with h3 | h3
      · exact absurd h3 (by decide)
      · exact w.query_ok q0 hq0 h3
  have hauth : '#' ∉ (if u.auth then
      ['/', '/'] ++
      (match u.userinfo with | some ui => ui ++ ['@'] | none => []) ++
      u.host ++
      (match u.port with | some p => ':' :: p | none => [])
      else ([] : List Char)) := by
    by_cases ha : u.auth = true
    · rw [if_pos ha]
      intro hm
      rcases List.mem_append.mp hm with h1 | h1
      · rcases List.mem_append.mp h1 with h2 | h2
        · rcases List.mem_append.mp h2 with h3 | h3
          · exact absurd h3 (by decide)
          · cases hu : u.userinfo with
            | none => rw [hu] at h3; simp at h3
            | some l =>
              rw [hu] at h3
              rcases List.mem_append.mp h3 with h4 | h4
              · exact absurd (w.ui_ok l hu '#' h4) (by decide)
              · rw [List.mem_singleton] at h4
                exact absurd h4 (by decide)
        · exact absurd (w.host_ok '#' h2) (by decide)
      · cases hp : u.port with
        | none => rw [hp] at h1; simp at h1
        | some p =>
          rw [hp] at h1
          rcases List.mem_cons.mp h1 with h3 | h3
          · exact absurd h3 (by decide)
          · exact absurd
              (List.all_eq_true.mp (w.port_ok p hp).2 '#' h3) (by decide)
    · rw [if_neg ha]
      simp
  unfold serializeChars
  rw [hf]
  intro hm
  simp only [List.mem_append, List.mem_singleton] at hm
  rcases hm with ((((h | h) | h) | h) | h) | h
  · exact hsch h
  · exact absurd h (by decide)
  · exact hauth h
  · exact hpath h
  · exact hq h
  · simp at h

/-- Does the hostname of `y` still start with `www.`?  (`false` also when
`y` does not parse.) -/
def hostStartsWWW (y : String) : Bool :=
  match hostOf y with
  | some h => h.take 4 = "www.".data
  | none => false

theorem normalizeUrl1_idem (x y : String) (h : normalizeUrl1 x = some y) :
    normalizeUrl1 y = some y := by
  unfold normalizeUrl1 at h ⊢
  cases hc : normalizeUrl1C x.data with
  | none => rw [hc] at h; simp at h
  | some l =>
    rw [hc] at h
    simp only [Option.map_some', Option.some.injEq] at h
    subst h
    rw [show (String.mk l).data = l from rfl, normalizeUrl1C_idem x.data l hc]
    rfl

theorem normalizeUrlM_idem (x y : String) (h : normalizeUrlM x = some y)
    (hw : hostStartsWWW y = false) : normalizeUrlM y = some y := by
  unfold normalizeUrlM at h ⊢
  cases hc : normalizeUrlMC x.data with
  | none => rw [hc] at h; simp at h
  | some l =>
    rw [hc] at h
    simp only [Option.map_some', Option.some.injEq] at h
    subst h
    have hl : (String.mk l).data = l := rfl
    rw [hl, normalizeUrlMC_idem x.data l hc ?_]
    · rfl
    · intro u hu hcon
      unfold hostStartsWWW hostOf at hw
      rw [hl, hu] at hw
      simp only [Option.map_some'] at hw
      rw [hcon] at hw
      simp at hw

theorem normalizeUrl1_no_hash (h c : String)
    (hh : normalizeUrl1 h = some c) : '#' ∉ c.data := by
  unfold normalizeUrl1 at hh
  cases hc : normalizeUrl1C h.data with
  | none => rw [hc] at hh; simp at hh
  | some l =>
    rw [hc] at hh
    simp only [Option.map_some', Option.some.injEq] at hh
    subst hh
    unfold normalizeUrl1C at hc
    cases hp : parseChars h.data with
    | none => rw [hp] at hc; simp at hc
    | some u =>
      rw [hp] at hc
      simp only [Option.map_some', Option.some.injEq] at hc
      subst hc
      exact serialize_no_hash (clearHash u)
        (wf_clearHash u (parse_wf _ u hp)) (clearHash_frag u)

theorem normalizeUrlM_no_hash (h c : String)
    (hh : normalizeUrlM h = some c) : '#' ∉ c.data := by
  unfold normalizeUrlM at hh
  cases hc : normalizeUrlMC h.data with
  | none => rw [hc] at hh; simp at hh
  | some l =>
    rw [hc] at hh
    simp only [Option.map_some', Option.some.injEq] at hh
    subst hh
    obtain ⟨u, _, hy, _⟩ := normalizeUrlMC_parse h.data l hc
    subst hy
    exact serialize_no_hash _
      (wf_stripWWW _ (wf_clearHash u (parse_wf _ u ‹parseChars h.data = some u›)))
      (by rw [stripWWW_frag]; exact clearHash_frag u)

/-- The shared fold of both `extractLinks` variants: normalize each href,
keep the ones passing the domain test, deduplicate preserving insertion
order (the JavaScript `Set`). -/
def dedupFilterFold (norm : String → Option String) (keep : String → Bool)
    (acc : List String) (hrefs : List String) : List String :=
  hrefs.foldl
    (fun a h =>
      match norm h with
      | some clean =>
        if keep clean then (if clean ∈ a then a else a ++ [clean]) else a
      | none => a)
    acc

theorem extractLinksM_eq_fold (hrefs : List String) (base : String) :
    extractLinksM hrefs base =
    dedupFilterFold normalizeUrlM (fun c => sameDomain c base) [] hrefs := rfl

theorem extractLinks1_eq_fold (hrefs : List String) (base : String) :
    extractLinks1 hrefs base =
    dedupFilterFold normalizeUrl1 (fun c => isSameDomain c base) [] hrefs := rfl

theorem dedupFilterFold_spec (norm : String → Option String)
    (keep : String → Bool) (hrefs : List String) :
    ∀ acc : List String, acc.Nodup →
      (dedupFilterFold norm keep acc hrefs).Nodup ∧
      ∀ c ∈ dedupFilterFold norm keep acc hrefs,
        c ∈ acc ∨ ((∃ h ∈ hrefs, norm h = some c) ∧ keep c = true) := by
  induction hrefs with
  | nil =>
    intro acc hnd
    exact ⟨hnd, fun c hc => Or.inl hc⟩
  | cons h hs ih =>
    intro acc hnd
    have hstep : dedupFilterFold norm keep acc (h :: hs) =
        dedupFilterFold norm keep
          (match norm h with
           | some clean =>
             if keep clean then
               (if clean ∈ acc then acc else acc ++ [clean])
             else acc
           | none => acc) hs := rfl
    rw [hstep]
    cases hn : norm h with
    | none =>
      obtain ⟨ihn, ihm⟩ := ih acc hnd
      refine ⟨ihn, fun c hc => ?_⟩
      rcases ihm c hc with h1 | h2
      · exact Or.inl h1
      · exact Or.inr ⟨⟨h2.1.choose, by simp [h2.1.choose_spec.1],
          h2.1.choose_spec.2⟩, h2.2⟩
    | some clean =>
      simp only []
      by_cases hk : keep clean = true
      · rw [if_pos hk]
        by_cases hm : clean ∈ acc
        · rw [if_pos hm]
          obtain ⟨ihn, ihm⟩ := ih acc hnd
          refine ⟨ihn, fun c hc => ?_⟩
          rcases ihm c hc with h1 | h2
          · exact Or.inl h1
          · exact Or.inr ⟨⟨h2.1.choose, by simp [h2.1.choose_spec.1],
              h2.1.choose_spec.2⟩, h2.2⟩
        · rw [if_neg hm]
          have hnd2 : (acc ++ [clean]).Nodup := by
            rw [List.nodup_append]
            refine ⟨hnd, List.nodup_singleton clean, ?_⟩
            intro a ha hb
            rw [List.mem_singleton] at hb
            subst hb
            exact hm ha
          obtain ⟨ihn, ihm⟩ := ih (acc ++ [clean]) hnd2
          refine ⟨ihn, fun c hc => ?_⟩
          rcases ihm c hc with h1 | h2
          · rcases List.mem_append.mp h1 with h3 | h3
            · exact Or.inl h3
            · rw [List.mem_singleton] at h3
              subst h3
              exact Or.inr ⟨⟨h, by simp, hn⟩, hk⟩
          · exact Or.inr ⟨⟨h2.1.choose, by simp [h2.1.choose_spec.1],
              h2.1.choose_spec.2⟩, h2.2⟩
      · rw [if_neg hk]
        obtain ⟨ihn, ihm⟩ := ih acc hnd
        refine ⟨ihn, fun c hc => ?_⟩
        rcases ihm c hc with h1 | h2
        · exact Or.inl h1
        · exact Or.inr ⟨⟨h2.1.choose, by simp [h2.1.choose_spec.1],
            h2.1.choose_spec.2⟩, h2.2⟩

/-! ### Claims C3, C7 and C10 -/

/-- C3, counterexample: the claim's own example fails on the code.  The
modular `sameDomain` parses `base` with `new URL(base)`, so a bare domain
string such as `"agency.gov"` (no scheme) makes that parse throw and the
function returns `false` — `sameDomain("https://sub.agency.gov/y",
"agency.gov")` is `false`, not `true` as claimed. -/
theorem sameDomain_bare_base_counterexample :
    sameDomain "https://sub.agency.gov/y" "agency.gov" = false ∧
    isSameDomain "https://xagency.gov/" "agency.gov" = true := by
  constructor
  · decide
  · decide

/-- C3 (amended): `sameDomain(url, base)` is true iff both `url` and
`base` parse as absolute URLs and `url`'s host equals `base`'s host or
ends with `"." + base`'s host; it returns `false` rather than failing on
any malformed `url` (in particular on a bare-domain `base`), so the
claim's examples hold once `base` is written as a URL.  (The stage1
`isSameDomain` instead tests a raw string suffix, which also accepts
hosts like `xagency.gov`.) -/
theorem sameDomain_characterization :
    (∀ url base : String, sameDomain url base = true ↔
      ∃ hu hb, hostOf url = some hu ∧ hostOf base = some hb ∧
        (hu = hb ∨ ('.' :: hb).isSuffixOf hu = true)) ∧
    (∀ url base : String, parseChars url.data = none →
      sameDomain url base = false) ∧
    sameDomain "https://sub.agency.gov/y" "https://agency.gov" = true ∧
    sameDomain "https://other.com" "https://agency.gov" = false ∧
    sameDomain "https://sub.agency.gov/y" "agency.gov" = false := by
  refine ⟨?_, ?_, by decide, by decide, by decide⟩
  · intro url base
    unfold sameDomain
    cases hu : hostOf url with
    | none =>
      simp only []
      constructor
      · intro hc
        simp at hc
      · rintro ⟨h1, h2, hh1, -, -⟩
        simp at hh1
    | some h1 =>
      cases hb : hostOf base with
      | none =>
        simp only []
        constructor
        · intro hc
          simp at hc
        · rintro ⟨h2, h3, -, hh2, -⟩
          simp at hh2
      | some h2 =>
        simp only [Bool.or_eq_true, decide_eq_true_eq]
        constructor
        · intro hc
          exact ⟨h1, h2, rfl, rfl, hc⟩
        · rintro ⟨h3, h4, hh3, hh4, hor⟩
          simp only [Option.some.injEq] at hh3 hh4
          subst hh3 hh4
          exact hor
  · intro url base hpu
    unfold sameDomain hostOf
    rw [hpu]
    rfl

/-- C3 witness: the characterization applied at concrete inputs. -/
theorem sameDomain_characterization_witness :
    sameDomain "agency.gov" "https://x.gov" = false :=
  sameDomain_characterization.2.1 "agency.gov" "https://x.gov" (by decide)

/-- C7, counterexample: the modular `normalizeUrl` strips one leading
`www.` label, so it is not idempotent: on
`"https://www.www.a.gov/"` one pass yields `"https://www.a.gov/"` and a
second pass yields `"https://a.gov/"`. -/
theorem normalizeUrl_modular_not_idempotent :
    normalizeUrlM "https://www.www.a.gov/" = some "https://www.a.gov/" ∧
    normalizeUrlM "https://www.a.gov/" = some "https://a.gov/" ∧
    ¬ (∀ x y : String, normalizeUrlM x = some y → normalizeUrlM y = some y) := by
  refine ⟨by decide, by decide, ?_⟩
  intro hall
  have h1 := hall "https://www.www.a.gov/" "https://www.a.gov/" (by decide)
  rw [show normalizeUrlM "https://www.a.gov/" = some "https://a.gov/"
    from by decide] at h1
  exact absurd h1 (by decide)

/-- C7 (amended): the stage1 `normalizeUrl` is idempotent; the modular
`normalizeUrl` is idempotent at every output whose host does not still
begin with `www.` (the repeated-`www.` hosts are the only exceptions);
both strip the fragment, and both fail exactly on inputs unparsable as an
absolute URL. -/
theorem normalizeUrl_idempotence :
    (∀ x y : String, normalizeUrl1 x = some y → normalizeUrl1 y = some y) ∧
    (∀ x y : String, normalizeUrlM x = some y → hostStartsWWW y = false →
      normalizeUrlM y = some y) ∧
    normalizeUrl1 "https://a.gov/x#frag" = normalizeUrl1 "https://a.gov/x" ∧
    normalizeUrlM "https://a.gov/x#frag" = normalizeUrlM "https://a.gov/x" ∧
    (∀ x : String, normalizeUrl1 x = none ↔ parseChars x.data = none) ∧
    (∀ x : String, normalizeUrlM x = none ↔ parseChars x.data = none) := by
  refine ⟨normalizeUrl1_idem, normalizeUrlM_idem, by decide, by decide, ?_, ?_⟩
  · intro x
    unfold normalizeUrl1 normalizeUrl1C
    cases parseChars x.data <;> simp
  · intro x
    unfold normalizeUrlM normalizeUrlMC
    cases parseChars x.data <;> simp

/-- C7 witness: idempotence applied at concrete inputs. -/
theorem normalizeUrl_idempotence_witness :
    normalizeUrl1 "https://a.gov/x" = some "https://a.gov/x" ∧
    normalizeUrlM "https://a.gov/p" = some "https://a.gov/p" :=
  ⟨normalizeUrl_idempotence.1 "https://a.gov/x#f" "https://a.gov/x" (by decide),
   normalizeUrl_idempotence.2.1 "https://www.a.gov/p" "https://a.gov/p"
     (by decide) (by decide)⟩

/-- C10: each `extractLinks` variant returns a duplicate-free sequence in
which every element is the successful normalization of some href of the
page, satisfies the variant's same-domain predicate against the base, and
is fragment-free; malformed or off-domain hrefs never contribute. -/
theorem extractLinks_spec (hrefs : List String) (base : String) :
    (extractLinksM hrefs base).Nodup ∧
    (∀ c ∈ extractLinksM hrefs base,
      (∃ h ∈ hrefs, normalizeUrlM h = some c) ∧
      sameDomain c base = true ∧ '#' ∉ c.data) ∧
    (extractLinks1 hrefs base).Nodup ∧
    (∀ c ∈ extractLinks1 hrefs base,
      (∃ h ∈ hrefs, normalizeUrl1 h = some c) ∧
      isSameDomain c base = true ∧ '#' ∉ c.data) := by
  obtain ⟨hndM, hmemM⟩ :=
    dedupFilterFold_spec normalizeUrlM (fun c => sameDomain c base) hrefs
      [] List.nodup_nil
  obtain ⟨hnd1, hmem1⟩ :=
    dedupFilterFold_spec normalizeUrl1 (fun c => isSameDomain c base) hrefs
      [] List.nodup_nil
  rw [extractLinksM_eq_fold, extractLinks1_eq_fold]
  refine ⟨hndM, ?_, hnd1, ?_⟩
  · intro c hc
    rcases hmemM c hc with h1 | ⟨⟨h0, hh0, hn0⟩, hk⟩
    · simp at h1
    · exact ⟨⟨h0, hh0, hn0⟩, hk, normalizeUrlM_no_hash h0 c hn0⟩
  · intro c hc
    rcases hmem1 c hc with h1 | ⟨⟨h0, hh0, hn0⟩, hk⟩
    · simp at h1
    · exact ⟨⟨h0, hh0, hn0⟩, hk, normalizeUrl1_no_hash h0 c hn0⟩

/-- C10 witness: the specification applied to a concrete page. -/
theorem extractLinks_spec_witness :
    (∃ h ∈ ["https://www.a.gov/x#f", "bad url", "https://other.com/"],
      normalizeUrlM h = some "https://a.gov/x") ∧
    sameDomain "https://a.gov/x" "https://a.gov" = true ∧
    '#' ∉ "https://a.gov/x".data :=
  (extractLinks_spec ["https://www.a.gov/x#f", "bad url", "https://other.com/"]
    "https://a.gov").2.1 "https://a.gov/x" (by decide)

/-! ### The rule files: violation records and the bespoke DOM rules

A rendered document is modelled as its elements in tree order; the data a
rule reads off an element through the in-page evaluation (tag name,
attributes, computed style, bounding box) are fields of `Elem`.  Bounding
boxes are rational (fractional CSS pixels). -/

structure NodeRes where
  html : String
  target : List String
  failureSummary : Option String
deriving Repr, DecidableEq

structure Violation where
  id : String
  description : String
  impact : Option String
  nodes : List NodeRes
deriving Repr, DecidableEq

structure Elem where
  tagLower : String
  idAttr : String
  className : String
  hasHref : Bool
  typeAttr : Option String
  role : Option String
  hasOnclick : Bool
  hasAutoplay : Bool
  hasControls : Bool
  tabIndex : Int
  width : ℚ
  height : ℚ
  display : String
  visibility : String
  outerHTML : String
deriving Repr, DecidableEq

/-- The interactive-element selector of `rule_2_5_8_targetSizeMin`:
`a[href], button, input[type=submit], input[type=button], [role="button"],
[onclick]`. -/
def matchesInteractive (e : Elem) : Bool :=
  (e.tagLower = "a" && e.hasHref) || e.tagLower = "button" ||
  (e.tagLower = "input" &&
    (e.typeAttr = some "submit" || e.typeAttr = some "button")) ||
  e.role = some "button" || e.hasOnclick

/-- JavaScript `Math.round`. -/
def jsRound (x : ℚ) : Int := Int.floor (x + 1 / 2)

/-- JavaScript `String.prototype.includes`, on character lists. -/
def includesSub (needle : List Char) : List Char → Bool
  | [] => needle.isEmpty
  | h :: t => needle.isPrefixOf (h :: t) || includesSub needle t

/-- The per-element flag condition in the body of
`rule_2_5_8_targetSizeMin`'s loop. -/
def targetSizeCond (e : Elem) : Bool :=
  let isInline := e.display = "inline"
  let visible := e.display ≠ "none" && e.visibility ≠ "hidden" &&
    e.width > 0 && e.height > 0
  let isVisuallyHiddenFocusable :=
    includesSub "visually-hidden".data e.className.data && e.tabIndex ≥ 0
  (e.width < 24 || e.height < 24) && !isInline && visible &&
    !isVisuallyHiddenFocusable

/-- The node record pushed for an offender (html snippet, tag(#id)
selector, rounded-size failure summary). -/
def targetSizeNode (e : Elem) : NodeRes :=
  { html := e.outerHTML.take 300,
    target := [e.tagLower ++ (if e.idAttr ≠ "" then "#" ++ e.idAttr else "")],
    failureSummary := some ("Pointer target is only " ++
      toString (jsRound e.width) ++ "x" ++ toString (jsRound e.height) ++
      "px. Must be at least 24x24px.") }

/-- `rule_2_5_8_targetSizeMin`: iterate the interactive elements, push a
node for each too-small visible non-inline target, then wrap each node in
its own `2.5.8` Violation. -/
def rule_2_5_8_targetSizeMin (doc : List Elem) : List Violation :=
  let interactive := doc.filter matchesInteractive
  let violations := interactive.foldl
    (fun vs e => if targetSizeCond e then vs ++ [targetSizeNode e] else vs) []
  violations.map (fun v =>
    { id := "2.5.8", description := "Target Size (Minimum)",
      impact := some "moderate", nodes := [v] })

/-- `rule_1_4_2_audio`: flag `audio`/`video` elements with `autoplay` and
no `controls`; nodes carry a truncated snippet and an empty target list. -/
def rule_1_4_2_audio (doc : List Elem) : List Violation :=
  let offenders := ((doc.filter
      (fun e => e.tagLower = "audio" || e.tagLower = "video")).filter
      (fun e => e.hasAutoplay && !e.hasControls)).map
      (fun e => e.outerHTML.take 200)
  if offenders.length = 0 then []
  else
    [{ id := "1.4.2",
       description := "Autoplay media >3 s without independent pause/volume control",
       impact := some "serious",
       nodes := offenders.map
         (fun html => { html := html, target := [], failureSummary := none }) }]

theorem foldl_push_filter {α β : Type} (p : α → Bool) (f : α → β)
    (l : List α) :
    ∀ acc : List β,
      l.foldl (fun vs e => if p e then vs ++ [f e] else vs) acc =
      acc ++ (l.filter p).map f := by
  induction l with
  | nil => intro acc; simp
  | cons x xs ih =>
    intro acc
    by_cases hx : p x
    · rw [List.foldl_cons, if_pos hx, ih, List.filter_cons_of_pos hx]
      simp
    · rw [List.foldl_cons, if_neg hx, ih,
        List.filter_cons_of_neg (by simpa using hx)]

/-- The violation wrapper of `rule_2_5_8_targetSizeMin`. -/
def targetSizeViolation (e : Elem) : Violation :=
  { id := "2.5.8", description := "Target Size (Minimum)",
    impact := some "moderate", nodes := [targetSizeNode e] }

/-- The pointer-target condition, written from the claim's words: an
interactive element whose rendered bounding box is below the 24×24 pixel
threshold, excluding inline-flow elements, invisible elements, and
visually-hidden-but-focusable elements. -/
def claimPointerTargetFlag (e : Elem) : Prop :=
  matchesInteractive e = true ∧
  (e.width < 24 ∨ e.height < 24) ∧
  e.display ≠ "inline" ∧
  ¬ (e.display = "none" ∨ e.visibility = "hidden" ∨
     e.width ≤ 0 ∨ e.height ≤ 0) ∧
  ¬ (includesSub "visually-hidden".data e.className.data = true ∧
     0 ≤ e.tabIndex)

/-- A 16×16 pixel anchor with an href, as in the claim's example. -/
def anchor16 (disp : String) : Elem :=
  { tagLower := "a", idAttr := "", className := "", hasHref := true,
    typeAttr := none, role := none, hasOnclick := false,
    hasAutoplay := false, hasControls := false, tabIndex := 0,
    width := 16, height := 16, display := disp, visibility := "visible",
    outerHTML := "<a href=x>x</a>" }

/-- C8: the minimum pointer-target rule flags exactly the interactive
elements whose bounding box is below 24×24, excluding inline-flow,
invisible, and visually-hidden-but-focusable elements; the claim's 16×16
anchor is flagged with `display: block` and not with `display: inline`. -/
theorem rule_2_5_8_flags_exactly :
    (∀ doc : List Elem, rule_2_5_8_targetSizeMin doc =
      ((doc.filter matchesInteractive).filter targetSizeCond).map
        targetSizeViolation) ∧
    (∀ e : Elem,
      (matchesInteractive e = true ∧ targetSizeCond e = true) ↔
      claimPointerTargetFlag e) ∧
    rule_2_5_8_targetSizeMin [anchor16 "block"] =
      [targetSizeViolation (anchor16 "block")] ∧
    rule_2_5_8_targetSizeMin [anchor16 "inline"] = [] := by
  refine ⟨?_, ?_, ?_, ?_⟩
  · intro doc
    unfold rule_2_5_8_targetSizeMin
    simp only []
    rw [foldl_push_filter targetSizeCond targetSizeNode _ [],
      List.nil_append, List.map_map]
    rfl
  · intro e
    unfold targetSizeCond claimPointerTargetFlag
    simp only [Bool.and_eq_true, Bool.or_eq_true, decide_eq_true_eq,
      Bool.not_eq_true', decide_eq_false_iff_not, not_lt, not_le,
      Bool.and_eq_false_iff, gt_iff_lt, ge_iff_le, ne_eq]
    have hvhf_iff :
        (includesSub "visually-hidden".data e.className.data = false ∨
          e.tabIndex < 0) ↔
        ¬ (includesSub "visually-hidden".data e.className.data = true ∧
           0 ≤ e.tabIndex) := by
      constructor
      · rintro (h | h) ⟨h1, h2⟩
        · rw [h1] at h
          exact absurd h (by decide)
        · omega
      · intro h
        by_cases hin :
            includesSub "visually-hidden".data e.className.data = true
        · refine Or.inr ?_
          have h5 : ¬ (0 : Int) ≤ e.tabIndex := fun ht => h ⟨hin, ht⟩
          omega
        · exact Or.inl (by simpa using hin)
    have hvis_iff :
        (¬ e.display = "none" ∧ ¬ e.visibility = "hidden" ∧
          0 < e.width ∧ 0 < e.height) ↔
        ¬ (e.display = "none" ∨ e.visibility = "hidden" ∨
           e.width ≤ 0 ∨ e.height ≤ 0) := by
      constructor
      · rintro ⟨a, b, c, d⟩ (h | h | h | h)
        · exact a h
        · exact b h
        · exact absurd c (not_lt.mpr h)
        · exact absurd d (not_lt.mpr h)
      · intro h
        exact ⟨fun x => h (Or.inl x), fun x => h (Or.inr (Or.inl x)),
          not_le.mp (fun x => h (Or.inr (Or.inr (Or.inl x)))),
          not_le.mp (fun x => h (Or.inr (Or.inr (Or.inr x))))⟩
    constructor
    · rintro ⟨hi, h⟩
      refine ⟨hi, by tauto, by tauto, hvis_iff.mp (by tauto),
        hvhf_iff.mp (by tauto)⟩
    · rintro ⟨hi, h1, h2, h3, h4⟩
      have v1 := hvis_iff.mpr h3
      have v2 := hvhf_iff.mpr h4
      exact ⟨hi, ⟨⟨h1, h2⟩, ⟨⟨v1.1, v1.2.1⟩, v1.2.2.1⟩, v1.2.2.2⟩, v2⟩
  · unfold rule_2_5_8_targetSizeMin
    simp only []
    rw [show List.filter matchesInteractive [anchor16 "block"] =
        [anchor16 "block"] from by
      simp [show matchesInteractive (anchor16 "block") = true from by decide]]
    rw [List.foldl_cons, List.foldl_nil, if_pos (by decide)]
    simp [targetSizeViolation]
  · unfold rule_2_5_8_targetSizeMin
    simp only []
    rw [show List.filter matchesInteractive [anchor16 "inline"] =
        [anchor16 "inline"] from by
      simp [show matchesInteractive (anchor16 "inline") = true from by decide]]
    rw [List.foldl_cons, List.foldl_nil, if_neg (by decide)]
    simp

/-- C8 witness: the characterization applied to the claim's example. -/
theorem rule_2_5_8_flags_exactly_witness :
    matchesInteractive (anchor16 "block") = true ∧
    targetSizeCond (anchor16 "block") = true :=
  (rule_2_5_8_flags_exactly.2.1 (anchor16 "block")).mpr
    (by unfold claimPointerTargetFlag; decide)

/-- An autoplaying audio element without controls. -/
def autoplayAudio : Elem :=
  { tagLower := "audio", idAttr := "", className := "", hasHref := false,
    typeAttr := none, role := none, hasOnclick := false,
    hasAutoplay := true, hasControls := false, tabIndex := -1,
    width := 300, height := 54, display := "inline", visibility := "visible",
    outerHTML := "<audio autoplay src=a.mp3></audio>" }

set_option maxRecDepth 4096 in
/-- C9: every NodeResult that `rule_1_4_2_audio` emits carries an EMPTY
`target` list — there is no CSS selector at all, so the downstream
highlighter's `document.querySelectorAll` pass has nothing to resolve,
contrary to the claim that `target` is a non-empty sequence of selectors
resolving to the offending element. -/
theorem rule_1_4_2_audio_empty_targets :
    (∀ (doc : List Elem) (v : Violation) (n : NodeRes),
      v ∈ rule_1_4_2_audio doc → n ∈ v.nodes → n.target = []) ∧
    rule_1_4_2_audio [autoplayAudio] =
      [{ id := "1.4.2",
         description := "Autoplay media >3 s without independent pause/volume control",
         impact := some "serious",
         nodes := [{ html := "<audio autoplay src=a.mp3></audio>",
                     target := [], failureSummary := none }] }] := by
  refine ⟨?_, by decide⟩
  intro doc v n hv hn
  unfold rule_1_4_2_audio at hv
  by_cases h0 : (((doc.filter
      (fun e => e.tagLower = "audio" || e.tagLower = "video")).filter
      (fun e => e.hasAutoplay && !e.hasControls)).map
      (fun e => e.outerHTML.take 200)).length = 0
  · rw [if_pos h0] at hv
    simp at hv
  · rw [if_neg h0] at hv
    rw [List.mem_singleton] at hv
    subst hv
    simp only [List.mem_map] at hn
    obtain ⟨html, _, hh⟩ := hn
    rw [← hh]

/-- C9 witness: the empty-target fact applied to a concrete document. -/
theorem rule_1_4_2_audio_empty_targets_witness :
    ({ html := "<audio autoplay src=a.mp3></audio>", target := [],
       failureSummary := none } : NodeRes).target = ([] : List String) :=
  rule_1_4_2_audio_empty_targets.1 [autoplayAudio]
    { id := "1.4.2",
      description := "Autoplay media >3 s without independent pause/volume control",
      impact := some "serious",
      nodes := [{ html := "<audio autoplay src=a.mp3></audio>",
                  target := [], failureSummary := none }] }
    { html := "<audio autoplay src=a.mp3></audio>", target := [],
      failureSummary := none }
    (by rw [rule_1_4_2_audio_empty_targets.2]; simp) (by simp)

/-! ### The crawl loops

Both crawler IIFEs are modelled as fuel-indexed functions over the state
`(queue, visited, results)`; the browser is an environment of
possibly-failing calls (`goto` = `page.goto`, `hrefs` = the `$$eval`
collecting anchor hrefs, `axe` = `runAxe`), each `Except.error` being a
thrown/rejected promise caught by the loop's `catch`.  The `timestamp`
field (wall clock) is omitted from the result records. -/

structure PageResultM where
  url : String
  violations : List Violation
  error : Option String
deriving Repr, DecidableEq

structure PageResultS where
  url : String
  violations : Option (List Violation)
  error : Option String
deriving Repr, DecidableEq

structure ModEnv where
  goto : String → Except String Unit
  hrefs : String → Except String (List String)

structure S1Env where
  goto : String → Except String Unit
  axe : String → Except String (List Violation)
  hrefs : String → Except String (List String)

/-- The modular crawler's `newLinks.forEach` enqueue callback
(`wcag-crawler.ts` lines 117-123): total-cap guard, re-normalization,
and the triple duplicate check against `visited` and the live `queue`. -/
def modPush (max : Nat) (visited2 q : List String) (l : String) :
    List String :=
  if max ≤ visited2.length + q.length then q
  else
    match normalizeUrlM l with
    | none => q
    | some clean =>
      if clean ∈ visited2 then q
      else if clean ∈ q then q
      else if q.any (fun q0 => normalizeUrlM q0 == some clean) then q
      else q ++ [clean]

def modEnqueue (max : Nat) (visited2 links q : List String) : List String :=
  links.foldl (modPush max visited2) q

/-- The stage1 crawler's enqueue callback (`wcag-crawler.ts` lines
313-322): re-normalization, visited/queue membership checks, and the
`queue.length < maxPages` guard. -/
def s1Push (max : Nat) (visited2 q : List String) (l : String) :
    List String :=
  match normalizeUrl1 l with
  | none => q
  | some clean =>
    if clean ∈ visited2 then q
    else if clean ∈ q then q
    else if q.length < max then q ++ [clean]
    else q

def s1Enqueue (max : Nat) (visited2 links q : List String) : List String :=
  links.foldl (s1Push max visited2) q

/-- The modular crawler's main loop (`wcag-crawler.ts` lines 99-128).
Note the try block contains only navigation and link handling: the
rule-execution and `results.push` lines are commented out in the source,
so a successful page contributes no record. -/
def modCrawl (env : ModEnv) (dom : String) (max : Nat) :
    Nat → List String → List String → List PageResultM →
    List String × List String × List PageResultM
  | 0, queue, visited, results => (queue, visited, results)
  | fuel + 1, queue, visited, results =>
    match queue with
    | [] => ([], visited, results)
    | u :: rest =>
      if max ≤ visited.length then (u :: rest, visited, results)
      else if u ∈ visited then modCrawl env dom max fuel rest visited results
      else
        let visited2 := visited ++ [u]
        match env.goto u with
        | .error e =>
          modCrawl env dom max fuel rest visited2
            (results ++ [⟨u, [], some e⟩])
        | .ok _ =>
          match env.hrefs u with
          | .error e =>
            modCrawl env dom max fuel rest visited2
              (results ++ [⟨u, [], some e⟩])
          | .ok hs =>
            modCrawl env dom max fuel
              (modEnqueue max visited2 (extractLinksM hs dom) rest)
              visited2 results

/-- The stage1 crawler's main loop (`wcag-crawler.ts` lines 286-328).
On success the record is pushed before `extractLinks` runs, so a failing
link extraction adds a second (error) record for the same URL; the catch
records carry no `violations` field (`none`). -/
def s1Crawl (env : S1Env) (dom : String) (max : Nat) :
    Nat → List String → List String → List PageResultS →
    List String × List String × List PageResultS
  | 0, queue, visited, results => (queue, visited, results)
  | fuel + 1, queue, visited, results =>
    match queue with
    | [] => ([], visited, results)
    | u :: rest =>
      if max ≤ visited.length then (u :: rest, visited, results)
      else if u ∈ visited then s1Crawl env dom max fuel rest visited results
      else
        let visited2 := visited ++ [u]
        match env.goto u with
        | .error e =>
          s1Crawl env dom max fuel rest visited2
            (results ++ [⟨u, none, some e⟩])
        | .ok _ =>
          match env.axe u with
          | .error e =>
            s1Crawl env dom max fuel rest visited2
              (results ++ [⟨u, none, some e⟩])
          | .ok viols =>
            match env.hrefs u with
            | .error e =>
              s1Crawl env dom max fuel rest visited2
                (results ++ [⟨u, some viols, none⟩, ⟨u, none, some e⟩])
            | .ok hs =>
              s1Crawl env dom max fuel
                (s1Enqueue max visited2 (extractLinks1 hs dom) rest)
                visited2 (results ++ [⟨u, some viols, none⟩])

/-! Unfolding equations for the individual iterations of the two loops. -/

theorem modCrawl_capped (env : ModEnv) (dom : String) (max n : Nat)
    (u : String) (rest visited : List String) (results : List PageResultM)
    (h1 : max ≤ visited.length) :
    modCrawl env dom max (n + 1) (u :: rest) visited results =
      (u :: rest, visited, results) := by
  conv_lhs => rw [modCrawl]
  simp only []
  rw [if_pos h1]

theorem modCrawl_skip (env : ModEnv) (dom : String) (max n : Nat)
    (u : String) (rest visited : List String) (results : List PageResultM)
    (h1 : visited.length < max) (h2 : u ∈ visited) :
    modCrawl env dom max (n + 1) (u :: rest) visited results =
      modCrawl env dom max n rest visited results := by
  conv_lhs => rw [modCrawl]
  simp only []
  rw [if_neg (Nat.not_le.mpr h1), if_pos h2]

theorem modCrawl_gotoFail (env : ModEnv) (dom : String) (max n : Nat)
    (u : String) (rest visited : List String) (results : List PageResultM)
    (e : String) (h1 : visited.length < max) (h2 : u ∉ visited)
    (hg : env.goto u = .error e) :
    modCrawl env dom max (n + 1) (u :: rest) visited results =
      modCrawl env dom max n rest (visited ++ [u])
        (results ++ [⟨u, [], some e⟩]) := by
  conv_lhs => rw [modCrawl]
  simp only []
  rw [if_neg (Nat.not_le.mpr h1), if_neg h2, hg]

theorem modCrawl_hrefsFail (env : ModEnv) (dom : String) (max n : Nat)
    (u : String) (rest visited : List String) (results : List PageResultM)
    (e : String) (h1 : visited.length < max) (h2 : u ∉ visited)
    (hg : env.goto u = .ok ()) (hh : env.hrefs u = .error e) :
    modCrawl env dom max (n + 1) (u :: rest) visited results =
      modCrawl env dom max n rest (visited ++ [u])
        (results ++ [⟨u, [], some e⟩]) := by
  conv_lhs => rw [modCrawl]
  simp only []
  rw [if_neg (Nat.not_le.mpr h1), if_neg h2, hg, hh]

theorem modCrawl_ok (env : ModEnv) (dom : String) (max n : Nat)
    (u : String) (rest visited : List String) (results : List PageResultM)
    (hs : List String) (h1 : visited.length < max) (h2 : u ∉ visited)
    (hg : env.goto u = .ok ()) (hh : env.hrefs u = .ok hs) :
    modCrawl env dom max (n + 1) (u :: rest) visited results =
      modCrawl env dom max n
        (modEnqueue max (visited ++ [u]) (extractLinksM hs dom) rest)
        (visited ++ [u]) results := by
  conv_lhs => rw [modCrawl]
  simp only []
  rw [if_neg (Nat.not_le.mpr h1), if_neg h2, hg, hh]

theorem s1Crawl_capped (env : S1Env) (dom : String) (max n : Nat)
    (u : String) (rest visited : List String) (results : List PageResultS)
    (h1 : max ≤ visited.length) :
    s1Crawl env dom max (n + 1) (u :: rest) visited results =
      (u :: rest, visited, results) := by
  conv_lhs => rw [s1Crawl]
  simp only []
  rw [if_pos h1]

theorem s1Crawl_skip (env : S1Env) (dom : String) (max n : Nat)
    (u : String) (rest visited : List String) (results : List PageResultS)
    (h1 : visited.length < max) (h2 : u ∈ visited) :
    s1Crawl env dom max (n + 1) (u :: rest) visited results =
      s1Crawl env dom max n rest visited results := by
  conv_lhs => rw [s1Crawl]
  simp only []
  rw [if_neg (Nat.not_le.mpr h1), if_pos h2]

theorem s1Crawl_gotoFail (env : S1Env) (dom : String) (max n : Nat)
    (u : String) (rest visited : List String) (results : List PageResultS)
    (e : String) (h1 : visited.length < max) (h2 : u ∉ visited)
    (hg : env.goto u = .error e) :
    s1Crawl env dom max (n + 1) (u :: rest) visited results =
      s1Crawl env dom max n rest (visited ++ [u])
        (results ++ [⟨u, none, some e⟩]) := by
  conv_lhs => rw [s1Crawl]
  simp only []
  rw [if_neg (Nat.not_le.mpr h1), if_neg h2, hg]

theorem s1Crawl_axeFail (env : S1Env) (dom : String) (max n : Nat)
    (u : String) (rest visited : List String) (results : List PageResultS)
    (e : String) (h1 : visited.length < max) (h2 : u ∉ visited)
    (hg : env.goto u = .ok ()) (ha : env.axe u = .error e) :
    s1Crawl env dom max (n + 1) (u :: rest) visited results =
      s1Crawl env dom max n rest (visited ++ [u])
        (results ++ [⟨u, none, some e⟩]) := by
  conv_lhs => rw [s1Crawl]
  simp only []
  rw [if_neg (Nat.not_le.mpr h1), if_neg h2, hg, ha]

theorem s1Crawl_hrefsFail (env : S1Env) (dom : String) (max n : Nat)
    (u : String) (rest visited : List String) (results : List PageResultS)
    (viols : List Violation) (e : String)
    (h1 : visited.length < max) (h2 : u ∉ visited)
    (hg : env.goto u = .ok ()) (ha : env.axe u = .ok viols)
    (hh : env.hrefs u = .error e) :
    s1Crawl env dom max (n + 1) (u :: rest) visited results =
      s1Crawl env dom max n rest (visited ++ [u])
        (results ++ [⟨u, some viols, none⟩, ⟨u, none, some e⟩]) := by
  conv_lhs => rw [s1Crawl]
  simp only []
  rw [if_neg (Nat.not_le.mpr h1), if_neg h2, hg, ha, hh]

theorem s1Crawl_ok (env : S1Env) (dom : String) (max n : Nat)
    (u : String) (rest visited : List String) (results : List PageResultS)
    (viols : List Violation) (hs : List String)
    (h1 : visited.length < max) (h2 : u ∉ visited)
    (hg : env.goto u = .ok ()) (ha : env.axe u = .ok viols)
    (hh : env.hrefs u = .ok hs) :
    s1Crawl env dom max (n + 1) (u :: rest) visited results =
      s1Crawl env dom max n
        (s1Enqueue max (visited ++ [u]) (extractLinks1 hs dom) rest)
        (visited ++ [u]) (results ++ [⟨u, some viols, none⟩]) := by
  conv_lhs => rw [s1Crawl]
  simp only []
  rw [if_neg (Nat.not_le.mpr h1), if_neg h2, hg, ha, hh]

/-! Concrete browser environments used to exercise the loops. -/

def okEnv : ModEnv :=
  { goto := fun _ => .ok (), hrefs := fun _ => .ok [] }

def errEnv : ModEnv :=
  { goto := fun _ => .error "timeout", hrefs := fun _ => .ok [] }

def errS1Env : S1Env :=
  { goto := fun _ => .error "timeout", axe := fun _ => .ok []
    hrefs := fun _ => .ok [] }

def axeFailEnv : S1Env :=
  { goto := fun _ => .ok (), axe := fun _ => .error "axe blew up"
    hrefs := fun _ => .ok [] }

def extractFailEnv : S1Env :=
  { goto := fun _ => .ok (), axe := fun _ => .ok []
    hrefs := fun _ => .error "ctx destroyed" }

def okS1Env : S1Env :=
  { goto := fun _ => .ok (), axe := fun _ => .ok []
    hrefs := fun _ => .ok [] }

/-- C1: the modular crawler never emits a success record: every record in
its output carries an error (only the catch block pushes, the
rule-running and `results.push` lines being commented out), and a fully
successful crawl visits pages yet produces an empty result list — no
PageResult per visited URL, and no violations are ever computed. -/
theorem modular_no_success_record :
    (∀ (env : ModEnv) (dom : String) (max fuel : Nat)
        (queue visited : List String) (results : List PageResultM),
        (∀ r ∈ results, r.error.isSome = true) →
        ∀ r ∈ (modCrawl env dom max fuel queue visited results).2.2,
          r.error.isSome = true) ∧
    modCrawl okEnv "https://x.gov" 3 5 ["https://x.gov/"] [] [] =
      ([], ["https://x.gov/"], []) := by
  constructor
  · intro env dom max fuel
    induction fuel with
    | zero => intro queue visited results h r hr; exact h r hr
    | succ n ih =>
      intro queue visited results h r hr
      cases queue with
      | nil => exact h r hr
      | cons u rest =>
        by_cases h1 : max ≤ visited.length
        · rw [modCrawl_capped env dom max n u rest visited results h1] at hr
          exact h r hr
        · replace h1 := Nat.not_le.mp h1
          by_cases h2 : u ∈ visited
          · rw [modCrawl_skip env dom max n u rest visited results h1 h2] at hr
            exact ih rest visited results h r hr
          · cases hg : env.goto u with
            | error e =>
              rw [modCrawl_gotoFail env dom max n u rest visited results e
                h1 h2 hg] at hr
              refine ih rest (visited ++ [u]) _ ?_ r hr
              intro r' hr'
              rcases List.mem_append.mp hr' with h' | h'
              · exact h r' h'
              · simp only [List.mem_singleton] at h'
                subst h'
                rfl
            | ok a =>
              cases a
              cases hh : env.hrefs u with
              | error e =>
                rw [modCrawl_hrefsFail env dom max n u rest visited results e
                  h1 h2 hg hh] at hr
                refine ih rest (visited ++ [u]) _ ?_ r hr
                intro r' hr'
                rcases List.mem_append.mp hr' with h' | h'
                · exact h r' h'
                · simp only [List.mem_singleton] at h'
                  subst h'
                  rfl
              | ok hs =>
                rw [modCrawl_ok env dom max n u rest visited results hs
                  h1 h2 hg hh] at hr
                exact ih _ (visited ++ [u]) results h r hr
  · rfl

theorem modular_no_success_record_witness :
    (⟨"https://x.gov/", [], some "timeout"⟩ : PageResultM).error.isSome =
      true :=
  modular_no_success_record.1 errEnv "https://x.gov" 3 5 ["https://x.gov/"]
    [] [] (fun r hr => absurd hr (List.not_mem_nil r))
    ⟨"https://x.gov/", [], some "timeout"⟩
    (by
      rw [show (modCrawl errEnv "https://x.gov" 3 5 ["https://x.gov/"]
            [] []).2.2 = [⟨"https://x.gov/", [], some "timeout"⟩] from rfl]
      exact List.mem_singleton.mpr rfl)

/-- C2: in the stage1 crawler a rule-engine failure (the axe run
rejecting) is not caught per rule: the page-level catch turns it into a
single error record whose violations field is absent, no PageResult with
partial violations is emitted for the page, and no links are extracted
from it — the crawl merely continues with the rest of the queue. -/
theorem s1_rule_failure_aborts_page (env : S1Env) (dom : String)
    (max fuel : Nat) (u : String) (rest visited : List String)
    (results : List PageResultS) (e : String)
    (h1 : visited.length < max) (h2 : u ∉ visited)
    (hg : env.goto u = .ok ()) (ha : env.axe u = .error e) :
    s1Crawl env dom max (fuel + 1) (u :: rest) visited results =
      s1Crawl env dom max fuel rest (visited ++ [u])
        (results ++ [⟨u, none, some e⟩]) :=
  s1Crawl_axeFail env dom max fuel u rest visited results e h1 h2 hg ha

theorem s1_rule_failure_aborts_page_witness :
    s1Crawl axeFailEnv "x.gov" 10 11 ["https://x.gov/"] [] [] =
      s1Crawl axeFailEnv "x.gov" 10 10 [] ["https://x.gov/"]
        [⟨"https://x.gov/", none, some "axe blew up"⟩] :=
  s1_rule_failure_aborts_page axeFailEnv "x.gov" 10 10 "https://x.gov/"
    [] [] [] "axe blew up" (by decide) (List.not_mem_nil _) rfl rfl

/-- C6 (amended): a failed navigation yields exactly one error record —
with empty violations in the modular crawler but an absent violations
field in the stage1 crawler — the page is counted as visited, and the
loop proceeds with the remaining queue; nothing is retried. -/
theorem nav_failure_single_error_record :
    (∀ (env : ModEnv) (dom : String) (max fuel : Nat) (u : String)
        (rest visited : List String) (results : List PageResultM)
        (e : String),
        visited.length < max → u ∉ visited → env.goto u = .error e →
        modCrawl env dom max (fuel + 1) (u :: rest) visited results =
          modCrawl env dom max fuel rest (visited ++ [u])
            (results ++ [⟨u, [], some e⟩])) ∧
    (∀ (env : S1Env) (dom : String) (max fuel : Nat) (u : String)
        (rest visited : List String) (results : List PageResultS)
        (e : String),
        visited.length < max → u ∉ visited → env.goto u = .error e →
        s1Crawl env dom max (fuel + 1) (u :: rest) visited results =
          s1Crawl env dom max fuel rest (visited ++ [u])
            (results ++ [⟨u, none, some e⟩])) :=
  ⟨fun env dom max fuel u rest visited results e h1 h2 hg =>
      modCrawl_gotoFail env dom max fuel u rest visited results e h1 h2 hg,
    fun env dom max fuel u rest visited results e h1 h2 hg =>
      s1Crawl_gotoFail env dom max fuel u rest visited results e h1 h2 hg⟩

theorem nav_failure_single_error_record_witness :
    (modCrawl errEnv "https://x.gov" 10 6 ["https://x.gov/"] [] [] =
        modCrawl errEnv "https://x.gov" 10 5 [] ["https://x.gov/"]
          [⟨"https://x.gov/", [], some "timeout"⟩]) ∧
    (s1Crawl errS1Env "x.gov" 10 6 ["https://x.gov/"] [] [] =
        s1Crawl errS1Env "x.gov" 10 5 [] ["https://x.gov/"]
          [⟨"https://x.gov/", none, some "timeout"⟩]) :=
  ⟨nav_failure_single_error_record.1 errEnv "https://x.gov" 10 5
      "https://x.gov/" [] [] [] "timeout" (by decide)
      (List.not_mem_nil _) rfl,
    nav_failure_single_error_record.2 errS1Env "x.gov" 10 5
      "https://x.gov/" [] [] [] "timeout" (by decide)
      (List.not_mem_nil _) rfl⟩

/-- C6 counterexample: the stage1 crawler's record for a failed
navigation has no violations field at all (`none`), not an empty
violations sequence (`some []`) as the claim requires. -/
theorem s1_nav_failure_omits_violations :
    (s1Crawl errS1Env "x.gov" 10 10 ["https://x.gov/"] [] []).2.2 =
      [⟨"https://x.gov/", none, some "timeout"⟩] ∧
    (⟨"https://x.gov/", none, some "timeout"⟩ : PageResultS).violations ≠
      some [] :=
  ⟨rfl, by simp⟩

/-! ### The frontier invariant (C4)

One enqueue callback either leaves the queue unchanged or appends a
single URL that is in neither the visited list nor the queue. -/

theorem modPush_cases (max : Nat) (visited2 q : List String) (l : String) :
    modPush max visited2 q l = q ∨
    ∃ clean, normalizeUrlM l = some clean ∧ clean ∉ visited2 ∧
      clean ∉ q ∧ modPush max visited2 q l = q ++ [clean] := by
  unfold modPush
  by_cases h1 : max ≤ visited2.length + q.length
  · left; rw [if_pos h1]
  · rw [if_neg h1]
    cases hn : normalizeUrlM l with
    | none => left; rfl
    | some clean =>
      simp only []
      by_cases h2 : clean ∈ visited2
      · left; rw [if_pos h2]
      · rw [if_neg h2]
        by_cases h3 : clean ∈ q
        · left; rw [if_pos h3]
        · rw [if_neg h3]
          by_cases h4 : (q.any fun q0 => normalizeUrlM q0 == some clean) = true
          · left; rw [if_pos h4]
          · right; exact ⟨clean, rfl, h2, h3, by rw [if_neg h4]⟩

theorem s1Push_cases (max : Nat) (visited2 q : List String) (l : String) :
    s1Push max visited2 q l = q ∨
    ∃ clean, normalizeUrl1 l = some clean ∧ clean ∉ visited2 ∧
      clean ∉ q ∧ s1Push max visited2 q l = q ++ [clean] := by
  unfold s1Push
  cases hn : normalizeUrl1 l with
  | none => left; rfl
  | some clean =>
    simp only []
    by_cases h2 : clean ∈ visited2
    · left; rw [if_pos h2]
    · rw [if_neg h2]
      by_cases h3 : clean ∈ q
      · left; rw [if_pos h3]
      · rw [if_neg h3]
        by_cases h4 : q.length < max
        · right; exact ⟨clean, rfl, h2, h3, by rw [if_pos h4]⟩
        · left; rw [if_neg h4]

theorem nodup_append_singleton {α : Type} {q : List α} {a : α}
    (hq : q.Nodup) (ha : a ∉ q) : (q ++ [a]).Nodup := by
  rw [List.nodup_append]
  refine ⟨hq, List.nodup_singleton a, ?_⟩
  intro x hx hxa
  simp only [List.mem_singleton] at hxa
  exact ha (hxa ▸ hx)

theorem modEnqueue_inv (max : Nat) (visited2 : List String) :
    ∀ (links q : List String), q.Nodup → (∀ x ∈ q, x ∉ visited2) →
      (modEnqueue max visited2 links q).Nodup ∧
      ∀ x ∈ modEnqueue max visited2 links q, x ∉ visited2 := by
  intro links
  induction links with
  | nil => intro q hq hd; exact ⟨hq, hd⟩
  | cons l ls ih =>
    intro q hq hd
    have hcons : modEnqueue max visited2 (l :: ls) q =
        modEnqueue max visited2 ls (modPush max visited2 q l) := rfl
    rw [hcons]
    rcases modPush_cases max visited2 q l with h | ⟨clean, _, h2, h3, h⟩
    · rw [h]; exact ih q hq hd
    · rw [h]
      refine ih (q ++ [clean]) (nodup_append_singleton hq h3) ?_
      intro x hx
      rcases List.mem_append.mp hx with hx | hx
      · exact hd x hx
      · simp only [List.mem_singleton] at hx; subst hx; exact h2

theorem s1Enqueue_inv (max : Nat) (visited2 : List String) :
    ∀ (links q : List String), q.Nodup → (∀ x ∈ q, x ∉ visited2) →
      (s1Enqueue max visited2 links q).Nodup ∧
      ∀ x ∈ s1Enqueue max visited2 links q, x ∉ visited2 := by
  intro links
  induction links with
  | nil => intro q hq hd; exact ⟨hq, hd⟩
  | cons l ls ih =>
    intro q hq hd
    have hcons : s1Enqueue max visited2 (l :: ls) q =
        s1Enqueue max visited2 ls (s1Push max visited2 q l) := rfl
    rw [hcons]
    rcases s1Push_cases max visited2 q l with h | ⟨clean, _, h2, h3, h⟩
    · rw [h]; exact ih q hq hd
    · rw [h]
      refine ih (q ++ [clean]) (nodup_append_singleton hq h3) ?_
      intro x hx
      rcases List.mem_append.mp hx with hx | hx
      · exact hd x hx
      · simp only [List.mem_singleton] at hx; subst hx; exact h2

/-- Dequeuing `u` and marking it visited preserves the structural half
of the frontier invariant. -/
theorem visitStep_inv {max : Nat} {u : String} {rest visited : List String}
    (hv : visited.Nodup) (hq : (u :: rest).Nodup)
    (hdisj : ∀ x ∈ u :: rest, x ∉ visited) (h1 : visited.length < max) :
    (visited ++ [u]).Nodup ∧ rest.Nodup ∧
    (∀ x ∈ rest, x ∉ visited ++ [u]) ∧ (visited ++ [u]).length ≤ max := by
  have hu : u ∉ visited := hdisj u (List.mem_cons_self u rest)
  have hur : u ∉ rest := (List.nodup_cons.mp hq).1
  refine ⟨nodup_append_singleton hv hu, (List.nodup_cons.mp hq).2, ?_, ?_⟩
  · intro x hx hmem
    rcases List.mem_append.mp hmem with h' | h'
    · exact hdisj x (List.mem_cons_of_mem u hx) h'
    · simp only [List.mem_singleton] at h'
      subst h'
      exact hur hx
  · rw [List.length_append, List.length_singleton]
    omega

/-- Appending one record for the URL just visited keeps the output urls
duplicate-free and inside the visited list. -/
theorem results_inv_step {α : Type} (url : α → String) {results : List α}
    {visited : List String} {u : String} (rec : α)
    (hrn : (results.map url).Nodup) (hrm : ∀ r ∈ results, url r ∈ visited)
    (hu : u ∉ visited) (hrec : url rec = u) :
    ((results ++ [rec]).map url).Nodup ∧
    ∀ r ∈ results ++ [rec], url r ∈ visited ++ [u] := by
  constructor
  · rw [List.map_append]
    refine nodup_append_singleton hrn ?_
    intro hmem
    rcases List.mem_map.mp hmem with ⟨r, hr, hru⟩
    have : u ∈ visited := by rw [← hrec, ← hru]; exact hrm r hr
    exact hu this
  · intro r hr
    rcases List.mem_append.mp hr with h' | h'
    · exact List.mem_append_left _ (hrm r h')
    · simp only [List.mem_singleton] at h'
      subst h'
      rw [hrec]
      exact List.mem_append_right _ (List.mem_singleton.mpr rfl)

/-- The frontier invariant over a crawl state `(queue, visited, results)`:
visited and queue are duplicate-free and disjoint, at most `max` pages
are visited, and the emitted records have pairwise distinct URLs all of
which were visited. -/
def ModInv (max : Nat)
    (st : List String × List String × List PageResultM) : Prop :=
  st.2.1.Nodup ∧ st.1.Nodup ∧ (∀ x ∈ st.1, x ∉ st.2.1) ∧
  st.2.1.length ≤ max ∧ (st.2.2.map PageResultM.url).Nodup ∧
  ∀ r ∈ st.2.2, r.url ∈ st.2.1

def S1Inv (max : Nat)
    (st : List String × List String × List PageResultS) : Prop :=
  st.2.1.Nodup ∧ st.1.Nodup ∧ (∀ x ∈ st.1, x ∉ st.2.1) ∧
  st.2.1.length ≤ max ∧ (st.2.2.map PageResultS.url).Nodup ∧
  ∀ r ∈ st.2.2, r.url ∈ st.2.1

/-- C4 (amended): every iteration of either loop preserves the frontier
invariant — so from any invariant state (in particular the initial one)
the crawl keeps visited and queue duplicate-free and disjoint, visits at
most `max` pages, and emits records with pairwise distinct URLs; for the
stage1 crawler the no-duplicate-output part additionally needs every
link extraction to succeed, since a failing extraction pushes a second
record for the URL already recorded. -/
theorem frontier_invariant :
    (∀ (env : ModEnv) (dom : String) (max fuel : Nat)
        (queue visited : List String) (results : List PageResultM),
        ModInv max (queue, visited, results) →
        ModInv max (modCrawl env dom max fuel queue visited results)) ∧
    (∀ (env : S1Env) (dom : String) (max fuel : Nat)
        (queue visited : List String) (results : List PageResultS),
        (∀ u, ∃ hs, env.hrefs u = Except.ok hs) →
        S1Inv max (queue, visited, results) →
        S1Inv max (s1Crawl env dom max fuel queue visited results)) := by
  constructor
  · intro env dom max fuel
    induction fuel with
    | zero => intro queue visited results h; exact h
    | succ n ih =>
      intro queue visited results h
      obtain ⟨hv, hq, hdisj, hlen, hrn, hrm⟩ := h
      cases queue with
      | nil =>
        exact ⟨hv, List.nodup_nil,
          fun x hx => absurd hx (List.not_mem_nil x), hlen, hrn, hrm⟩
      | cons u rest =>
        by_cases h1 : max ≤ visited.length
        · rw [modCrawl_capped env dom max n u rest visited results h1]
          exact ⟨hv, hq, hdisj, hlen, hrn, hrm⟩
        · replace h1 := Nat.not_le.mp h1
          have h2 : u ∉ visited := hdisj u (List.mem_cons_self u rest)
          obtain ⟨hv', hr', hd', hl'⟩ := visitStep_inv hv hq hdisj h1
          cases hg : env.goto u with
          | error e =>
            rw [modCrawl_gotoFail env dom max n u rest visited results e
              h1 h2 hg]
            obtain ⟨hrn', hrm'⟩ := results_inv_step PageResultM.url
              (⟨u, [], some e⟩ : PageResultM) hrn hrm h2 rfl
            exact ih rest (visited ++ [u]) _ ⟨hv', hr', hd', hl', hrn', hrm'⟩
          | ok a =>
            cases a
            cases hh : env.hrefs u with
            | error e =>
              rw [modCrawl_hrefsFail env dom max n u rest visited results e
                h1 h2 hg hh]
              obtain ⟨hrn', hrm'⟩ := results_inv_step PageResultM.url
                (⟨u, [], some e⟩ : PageResultM) hrn hrm h2 rfl
              exact ih rest (visited ++ [u]) _
                ⟨hv', hr', hd', hl', hrn', hrm'⟩
            | ok hs =>
              rw [modCrawl_ok env dom max n u rest visited results hs
                h1 h2 hg hh]
              obtain ⟨hqn2, hqd2⟩ := modEnqueue_inv max (visited ++ [u])
                (extractLinksM hs dom) rest hr' hd'
              exact ih _ (visited ++ [u]) results
                ⟨hv', hqn2, hqd2, hl', hrn,
                  fun r hr => List.mem_append_left _ (hrm r hr)⟩
  · intro env dom max fuel
    induction fuel with
    | zero => intro queue visited results _ h; exact h
    | succ n ih =>
      intro queue visited results hok h
      obtain ⟨hv, hq, hdisj, hlen, hrn, hrm⟩ := h
      cases queue with
      | nil =>
        exact ⟨hv, List.nodup_nil,
          fun x hx => absurd hx (List.not_mem_nil x), hlen, hrn, hrm⟩
      | cons u rest =>
        by_cases h1 : max ≤ visited.length
        · rw [s1Crawl_capped env dom max n u rest visited results h1]
          exact ⟨hv, hq, hdisj, hlen, hrn, hrm⟩
        · replace h1 := Nat.not_le.mp h1
          have h2 : u ∉ visited := hdisj u (List.mem_cons_self u rest)
          obtain ⟨hv', hr', hd', hl'⟩ := visitStep_inv hv hq hdisj h1
          cases hg : env.goto u with
          | error e =>
            rw [s1Crawl_gotoFail env dom max n u rest visited results e
              h1 h2 hg]
            obtain ⟨hrn', hrm'⟩ := results_inv_step PageResultS.url
              (⟨u, none, some e⟩ : PageResultS) hrn hrm h2 rfl
            exact ih rest (visited ++ [u]) _ hok
              ⟨hv', hr', hd', hl', hrn', hrm'⟩
          | ok a =>
            cases a
            cases ha : env.axe u with
            | error e =>
              rw [s1Crawl_axeFail env dom max n u rest visited results e
                h1 h2 hg ha]
              obtain ⟨hrn', hrm'⟩ := results_inv_step PageResultS.url
                (⟨u, none, some e⟩ : PageResultS) hrn hrm h2 rfl
              exact ih rest (visited ++ [u]) _ hok
                ⟨hv', hr', hd', hl', hrn', hrm'⟩
            | ok viols =>
              cases hh : env.hrefs u with
              | error e =>
                obtain ⟨hs0, hh0⟩ := hok u
                rw [hh] at hh0
                simp at hh0
              | ok hs =>
                rw [s1Crawl_ok env dom max n u rest visited results viols hs
                  h1 h2 hg ha hh]
                obtain ⟨hqn2, hqd2⟩ := s1Enqueue_inv max (visited ++ [u])
                  (extractLinks1 hs dom) rest hr' hd'
                obtain ⟨hrn', hrm'⟩ := results_inv_step PageResultS.url
                  (⟨u, some viols, none⟩ : PageResultS) hrn hrm h2 rfl
                exact ih _ (visited ++ [u]) _ hok
                  ⟨hv', hqn2, hqd2, hl', hrn', hrm'⟩

theorem frontier_invariant_witness :
    ModInv 3 (modCrawl okEnv "https://y.gov" 3 5 ["https://y.gov/"] [] []) ∧
    S1Inv 3 (s1Crawl okS1Env "y.gov" 3 5 ["https://y.gov/"] [] []) :=
  ⟨frontier_invariant.1 okEnv "https://y.gov" 3 5 ["https://y.gov/"] [] []
      ⟨List.nodup_nil, List.nodup_singleton _, by simp, by simp,
        List.nodup_nil, by simp⟩,
    frontier_invariant.2 okS1Env "y.gov" 3 5 ["https://y.gov/"] [] []
      (fun _ => ⟨[], rfl⟩)
      ⟨List.nodup_nil, List.nodup_singleton _, by simp, by simp,
        List.nodup_nil, by simp⟩⟩

/-- C4 counterexample: when link extraction throws after the page's
record was already pushed, the stage1 crawler emits two PageResults for
the same URL, so the output URL sequence has a duplicate. -/
theorem s1_duplicate_record_counterexample :
    (s1Crawl extractFailEnv "x.gov" 10 10 ["https://x.gov/"] [] []).2.2 =
      [⟨"https://x.gov/", some [], none⟩,
        ⟨"https://x.gov/", none, some "ctx destroyed"⟩] ∧
    ¬ ((s1Crawl extractFailEnv "x.gov" 10 10 ["https://x.gov/"] []
          []).2.2.map PageResultS.url).Nodup := by
  refine ⟨rfl, ?_⟩
  rw [show (s1Crawl extractFailEnv "x.gov" 10 10 ["https://x.gov/"] []
        []).2.2.map PageResultS.url =
      ["https://x.gov/", "https://x.gov/"] from rfl]
  decide

/-! ### Visit order (C5) -/

/-- A site on x.gov whose repeated-www link defeats the modular
crawler's re-admission check: page A links to T (as www.t.x.gov), but T
is suppressed because the queued entry www.t.x.gov — produced from a
www.www.www.t host by the single-label strips of extractLinks and of the
enqueue callback — re-normalizes to T. -/
def bfsEnv : ModEnv :=
  { goto := fun _ => .ok ()
    hrefs := fun u =>
      if u = "https://s.x.gov/" then
        .ok ["https://a.x.gov/", "https://www.www.www.t.x.gov/"]
      else if u = "https://a.x.gov/" then .ok ["https://www.t.x.gov/"]
      else if u = "https://www.t.x.gov/" then .ok ["https://b.x.gov/"]
      else if u = "https://b.x.gov/" then
        .ok ["https://c.x.gov/", "https://t.x.gov/"]
      else .ok [] }

/-- The claim's own example graph: the seed links to A and B, A links
to C. -/
def exEnv : ModEnv :=
  { goto := fun _ => .ok ()
    hrefs := fun u =>
      if u = "https://x.gov/" then
        .ok ["https://a.x.gov/", "https://b.x.gov/"]
      else if u = "https://a.x.gov/" then .ok ["https://c.x.gov/"]
      else .ok [] }

def exS1Env : S1Env :=
  { goto := fun _ => .ok (), axe := fun _ => .ok []
    hrefs := fun u =>
      if u = "https://x.gov/" then
        .ok ["https://a.x.gov/", "https://b.x.gov/"]
      else if u = "https://a.x.gov/" then .ok ["https://c.x.gov/"]
      else .ok [] }

/-- C5 counterexample: the modular crawl of `bfsEnv` visits
c.x.gov — discovered only via the depth-2 page www.t.x.gov and the
depth-3 page b.x.gov — before t.x.gov, which page A (depth 1) already
linked; A's link was dropped by the `queue.some(q => normalizeUrl(q)
=== clean)` check and T re-admitted later, breaking breadth-first
order. -/
theorem bfs_order_counterexample :
    (modCrawl bfsEnv "https://x.gov" 10 20 ["https://s.x.gov/"]
        [] []).2.1 =
      ["https://s.x.gov/", "https://a.x.gov/", "https://www.t.x.gov/",
        "https://b.x.gov/", "https://c.x.gov/", "https://t.x.gov/"] ∧
    bfsEnv.hrefs "https://a.x.gov/" = .ok ["https://www.t.x.gov/"] ∧
    normalizeUrlM "https://www.t.x.gov/" = some "https://t.x.gov/" ∧
    bfsEnv.hrefs "https://b.x.gov/" =
      .ok ["https://c.x.gov/", "https://t.x.gov/"] ∧
    List.indexOf "https://c.x.gov/"
        ["https://s.x.gov/", "https://a.x.gov/", "https://www.t.x.gov/",
          "https://b.x.gov/", "https://c.x.gov/", "https://t.x.gov/"] <
      List.indexOf "https://t.x.gov/"
        ["https://s.x.gov/", "https://a.x.gov/", "https://www.t.x.gov/",
          "https://b.x.gov/", "https://c.x.gov/", "https://t.x.gov/"] :=
  ⟨rfl, rfl, rfl, rfl, by decide⟩

/-- C5 (amended): both loops consume the queue from the front while the
enqueue callbacks only append, so visitation follows enqueue order, and
the claim's concrete example holds in both crawlers: with the seed
linking to A and B, A linking to C, and maxPages = 3, the visitation
order is seed, A, B. (Strict breadth-first order by depth nevertheless
fails for the modular crawler, per the counterexample.) -/
theorem fifo_append_and_bfs_example :
    (∀ (max : Nat) (visited2 links q : List String),
        ∃ app, modEnqueue max visited2 links q = q ++ app) ∧
    (∀ (max : Nat) (visited2 links q : List String),
        ∃ app, s1Enqueue max visited2 links q = q ++ app) ∧
    (modCrawl exEnv "https://x.gov" 3 10 ["https://x.gov/"] [] []).2.1 =
      ["https://x.gov/", "https://a.x.gov/", "https://b.x.gov/"] ∧
    (s1Crawl exS1Env "x.gov" 3 10 ["https://x.gov/"] [] []).2.1 =
      ["https://x.gov/", "https://a.x.gov/", "https://b.x.gov/"] := by
  refine ⟨?_, ?_, rfl, rfl⟩
  · intro max visited2 links
    induction links with
    | nil => intro q; exact ⟨[], by simp [modEnqueue]⟩
    | cons l ls ih =>
      intro q
      have hcons : modEnqueue max visited2 (l :: ls) q =
          modEnqueue max visited2 ls (modPush max visited2 q l) := rfl
      obtain ⟨app, happ⟩ := ih (modPush max visited2 q l)
      rcases modPush_cases max visited2 q l with h | ⟨clean, _, _, _, h⟩
      · exact ⟨app, by rw [hcons, happ, h]⟩
      · exact ⟨[clean] ++ app,
          by rw [hcons, happ, h, List.append_assoc]⟩
  · intro max visited2 links
    induction links with
    | nil => intro q; exact ⟨[], by simp [s1Enqueue]⟩
    | cons l ls ih =>
      intro q
      have hcons : s1Enqueue max visited2 (l :: ls) q =
          s1Enqueue max visited2 ls (s1Push max visited2 q l) := rfl
      obtain ⟨app, happ⟩ := ih (s1Push max visited2 q l)
      rcases s1Push_cases max visited2 q l with h | ⟨clean, _, _, _, h⟩
      · exact ⟨app, by rw [hcons, happ, h]⟩
      · exact ⟨[clean] ++ app,
          by rw [hcons, happ, h, List.append_assoc]⟩

end Wcag
